import Mathlib

/-!
# Verification of the RIFT-2026 fraud-pattern detection engine

This file gives a shallow embedding, in Lean 4, of the detection core in
`src/services/detectionEngine.ts` (class `DetectionEngine`), and proves or
refutes the frozen claims C1-C10 about it.

Modelling conventions:
* JS numbers carrying transaction amounts and risk values are modelled as `ℚ`.
* Cached epoch-millisecond times (`tx._time = new Date(ts).getTime()`) are
  modelled as `Option Int`, where `none` stands for the JS `NaN` produced by an
  unparsable timestamp.  Every JS comparison involving `NaN` is `false`, which
  the `jsLt`/`jsLe`/`jsGe` helpers reproduce; arithmetic propagates `NaN`.
* `new Date(s).getTime()` itself is modelled by `parseTimestamp`: a string of
  decimal digits (with optional leading minus) denotes that epoch value, any
  other string is unparsable and yields `none` (NaN).
* JS `Map` and `Set` preserve insertion order; they are modelled as
  association lists / lists deduplicated on insert, with in-place update for
  existing keys.
* `String.prototype.localeCompare` is modelled as lexicographic comparison of
  the code points (which agrees with the default locale on the ASCII data the
  engine compares).
* `Array.prototype.sort` is stable; the comparator-selected minimum of the
  canonicalization is modelled by a fold that keeps the earliest minimal
  element, and the numeric sort on transactions by a stable insertion sort.
* `performance.now()` timing is not modelled; `processing_time_seconds` is 0.
-/

-- The rational operations of the standard library are marked irreducible,
-- which blocks `decide` on concrete runs of the engine; restore reducibility
-- (this affects elaboration only, not the kernel).
set_option allowUnsafeReducibility true
set_option maxRecDepth 1000000

attribute [local semireducible] Rat.add Rat.mul Rat.inv Rat.sub

/-- JS strict `<` on possibly-NaN numbers: any comparison with NaN is false. -/
def jsLt : Option Int → Option Int → Bool
  | some a, some b => decide (a < b)
  | _, _ => false

/-- JS `<=` on possibly-NaN numbers: any comparison with NaN is false. -/
def jsLe : Option Int → Option Int → Bool
  | some a, some b => decide (a ≤ b)
  | _, _ => false

/-- JS `>=` on possibly-NaN numbers: any comparison with NaN is false. -/
def jsGe : Option Int → Option Int → Bool
  | some a, some b => decide (b ≤ a)
  | _, _ => false

/-- JS subtraction on possibly-NaN numbers: NaN propagates. -/
def jsSub : Option Int → Option Int → Option Int
  | some a, some b => some (a - b)
  | _, _ => none

/-- JS addition on possibly-NaN numbers: NaN propagates. -/
def jsAdd : Option Int → Option Int → Option Int
  | some a, some b => some (a + b)
  | _, _ => none

/-- `Math.min` on rationals. -/
def jsMin (a b : ℚ) : ℚ := if a ≤ b then a else b

/-- `Math.max` on rationals. -/
def jsMax (a b : ℚ) : ℚ := if a ≤ b then b else a

/-- Round to the nearest integer, halves toward `+∞` — the rounding used by
`Number(x.toFixed(1))` on the nonnegative values this engine produces.
Computed as `⌊x + 1/2⌋` on the rational `x = num/den`. -/
def jsRound (x : ℚ) : Int := Int.ediv (2 * x.num + (x.den : Int)) (2 * (x.den : Int))

/-- `Number((clampedRisk * 100).toFixed(1))`: scale a risk already clamped to
`[0,1]` to a one-decimal score in `[0,100]`. -/
def toFixed1 (x : ℚ) : ℚ := (jsRound (x * 10) : ℚ) / 10

/-- Lexicographic strict comparison of code-point sequences; this is the model
of `localeCompare` returning a negative value. -/
def lexLt (a b : List Char) : Bool := decide (a < b)

/-- `Array.prototype.join(sep)` at the level of code-point lists. -/
def joinSepData (sep : Char) : List (List Char) → List Char
  | [] => []
  | [x] => x
  | x :: y :: ys => x ++ sep :: joinSepData sep (y :: ys)

/-- `arr.join(sep)` for an array of strings and a one-character separator. -/
def joinSep (sep : Char) (l : List String) : String :=
  ⟨joinSepData sep (l.map String.data)⟩

/-- One transaction record, as consumed by the engine. -/
structure Transaction where
  transaction_id : String
  sender_id : String
  receiver_id : String
  amount : ℚ
  timestamp : String
deriving DecidableEq, Repr

/-- Model of `new Date(s).getTime()`: a decimal numeral (optionally negative)
denotes that epoch-millisecond value; any other string yields NaN (`none`). -/
def parseDigits : List Char → Option Nat
  | [] => none
  | [c] => if c.isDigit then some (c.toNat - 48) else none
  | c :: cs =>
    match parseDigits cs, c.isDigit with
    | some n, true => some ((c.toNat - 48) * 10 ^ cs.length + n)
    | _, _ => none

/-- Model of `new Date(s).getTime()`; see `parseDigits`. -/
def parseTimestamp (s : String) : Option Int :=
  match s.data with
  | '-' :: rest => (parseDigits rest).map (fun n => -(n : Int))
  | l => (parseDigits l).map (fun n => (n : Int))

/-- The cached `tx._time` value of a transaction (`none` = NaN). -/
def txTime (t : Transaction) : Option Int := parseTimestamp t.timestamp

inductive Pattern
  | cycle
  | smurfing
  | shell
deriving DecidableEq, Repr

structure FraudRing where
  ring_id : String
  member_accounts : List String
  pattern_type : Pattern
  risk_score : ℚ
deriving DecidableEq, Repr

structure SuspiciousAccount where
  account_id : String
  suspicion_score : ℚ
  detected_patterns : List Pattern
  ring_id : String
deriving DecidableEq, Repr

structure DetectionSummary where
  total_accounts_analyzed : Nat
  suspicious_accounts_flagged : Nat
  fraud_rings_detected : Nat
  processing_time_seconds : ℚ
deriving DecidableEq, Repr

structure DetectionResult where
  suspicious_accounts : List SuspiciousAccount
  fraud_rings : List FraudRing
  summary : DetectionSummary
deriving DecidableEq, Repr

/-- First-match association-list lookup: the semantics of `Map.get`. -/
def lookupA {α : Type} : List (String × α) → String → Option α
  | [], _ => none
  | (k, v) :: rest, key => if k = key then some v else lookupA rest key

/-- `Set.add` at the list level: append if not already present. -/
def setAdd (l : List String) (x : String) : List String :=
  if x ∈ l then l else l ++ [x]

/-- `Array.from(new Set(xs))`: deduplicate keeping first occurrences. -/
def dedupKeepFirst (l : List String) : List String := l.foldl setAdd []

/-- `adjacency.get(s).add(r)` with default-insert, preserving `Map` order. -/
def addEdge : List (String × List String) → String → String → List (String × List String)
  | [], s, r => [(s, [r])]
  | (k, vs) :: rest, s, r =>
    if k = s then (k, setAdd vs r) :: rest else (k, vs) :: addEdge rest s r

/-- Ensure `accountTx` has an entry for `k` (like `if (!m.has(k)) m.set(k, [])`). -/
def ensureKey : List (String × List Transaction) → String → List (String × List Transaction)
  | [], k => [(k, [])]
  | (k', vs) :: rest, k =>
    if k' = k then (k', vs) :: rest else (k', vs) :: ensureKey rest k

/-- `accountTx.get(k).push(tx)`, the key being present. -/
def pushTx : List (String × List Transaction) → String → Transaction → List (String × List Transaction)
  | [], _, _ => []
  | (k', vs) :: rest, k, tx =>
    if k' = k then (k', vs ++ [tx]) :: rest else (k', vs) :: pushTx rest k tx

/-- The graph index built by `buildGraph`. -/
structure Engine where
  transactions : List Transaction
  adjacency : List (String × List String)
  accountTx : List (String × List Transaction)
deriving Repr

/-- One iteration of the `buildGraph` loop body. -/
def buildStep (e : Engine) (tx : Transaction) : Engine :=
  let adj := addEdge e.adjacency tx.sender_id tx.receiver_id
  let at1 := ensureKey e.accountTx tx.sender_id
  let at2 := ensureKey at1 tx.receiver_id
  let at3 := pushTx at2 tx.sender_id tx
  let at4 := pushTx at3 tx.receiver_id tx
  { e with adjacency := adj, accountTx := at4 }

/-- `buildGraph`: one pass over the batch building adjacency and per-account
transaction lists (a transaction is pushed once per role it plays). -/
def buildGraph (txs : List Transaction) : Engine :=
  txs.foldl buildStep { transactions := txs, adjacency := [], accountTx := [] }

/-- `this.adjacency.get(x) || []`. -/
def nbrs (e : Engine) (x : String) : List String :=
  (lookupA e.adjacency x).getD []

/-- `this.accountTx.get(x) || []`. -/
def acctTxs (e : Engine) (x : String) : List Transaction :=
  (lookupA e.accountTx x).getD []

-- ── Tunable thresholds (source lines 16-23) ──
def WINDOW_MS : Int := 72 * 60 * 60 * 1000
def MIN_UNIQUE : Nat := 10
def MERCHANT_IN_THRESHOLD : Nat := 100
def MERCHANT_AVG_AMOUNT : ℚ := 2000
def SHELL_MAX_TX : Nat := 3
def SHELL_MIN_TX : Nat := 2
def PASSTHROUGH_RATIO_MIN : ℚ := 3 / 5
def SMURFING_RISK_THRESHOLD : ℚ := 13 / 20

/-- Sum of the `amount` fields (`reduce((s, t) => s + t.amount, 0)`). -/
def sumAmounts (l : List Transaction) : ℚ := l.foldl (fun s t => s + t.amount) 0

/-- `isMerchant(account, fanIn?, avgAmount?)`: merchant / payroll classifier. -/
def isMerchantB (e : Engine) (account : String) (fanIn : Option Nat)
    (avgAmount : Option ℚ) : Bool :=
  let txs := acctTxs e account
  let incoming := txs.filter (fun t => t.receiver_id == account)
  let outgoing := txs.filter (fun t => t.sender_id == account)
  let effectiveFanIn : Nat := fanIn.getD incoming.length
  let effectiveAvg : ℚ :=
    avgAmount.getD
      (if 0 < incoming.length then sumAmounts incoming / (incoming.length : ℚ) else 0)
  if MERCHANT_IN_THRESHOLD < effectiveFanIn ∧ outgoing.length = 0 ∧
      MERCHANT_AVG_AMOUNT < effectiveAvg then true
  else
    let uniqueReceivers := (dedupKeepFirst (outgoing.map (·.receiver_id))).length
    if MERCHANT_IN_THRESHOLD < uniqueReceivers ∧ incoming.length ≤ 5 then true
    else false

/-- `isShellIntermediate`: 2-3 transactions, non-zero inflow, pass-through
ratio at least 0.6 (division by zero yields 0 in both JS and this model, via
`min(0, Infinity) = 0` there and `x / 0 = 0` here). -/
def isShellIntermediateB (e : Engine) (account : String) : Bool :=
  let txs := acctTxs e account
  if txs.length < SHELL_MIN_TX ∨ SHELL_MAX_TX < txs.length then false
  else
    let totalIn := sumAmounts (txs.filter (fun t => t.receiver_id == account))
    let totalOut := sumAmounts (txs.filter (fun t => t.sender_id == account))
    if totalIn = 0 then false
    else decide (PASSTHROUGH_RATIO_MIN ≤ jsMin (totalOut / totalIn) (totalIn / totalOut))

/-- `getTxTime(from, to)`: the cached time of the first transaction found for
the ordered pair, `none` for JS `null` (no such transaction), `some none` for
a found transaction whose cached time is NaN. -/
def getTxTime (e : Engine) (fromA toA : String) : Option (Option Int) :=
  ((acctTxs e fromA).find? (fun t => t.sender_id == fromA && t.receiver_id == toA)).map txTime

/-- JS falsiness of the `getTxTime` result: `null`, `NaN` and `0` are falsy. -/
def jsFalsy : Option (Option Int) → Bool
  | none => true
  | some none => true
  | some (some t) => decide (t = 0)

/-- Numeric coercion of a `getTxTime` result as used in arithmetic:
`null` coerces to `0`, NaN stays NaN. -/
def jsNumOfLookup : Option (Option Int) → Option Int
  | none => some 0
  | some v => v

/-- `isTemporalChain(a,b,c,d)`: `if (!ab || !bc || !cd) return false;
return ab < bc && bc < cd;`. -/
def isTemporalChainB (e : Engine) (a b c d : String) : Bool :=
  let ab := getTxTime e a b
  let bc := getTxTime e b c
  let cd := getTxTime e c d
  if jsFalsy ab || jsFalsy bc || jsFalsy cd then false
  else jsLt (jsNumOfLookup ab) (jsNumOfLookup bc) &&
       jsLt (jsNumOfLookup bc) (jsNumOfLookup cd)

/-- `shellRisk(a,b,c,d)`: speed-scored risk of a shell chain. -/
def shellRisk (e : Engine) (a b c d : String) : ℚ :=
  let ab := jsNumOfLookup (getTxTime e a b)
  let cd := jsNumOfLookup (getTxTime e c d)
  let totalSpread := jsSub cd ab
  let speedScore : ℚ :=
    if jsLt totalSpread (some (24 * 60 * 60 * 1000)) then 1 else 3 / 4
  7 / 10 * speedScore + 1 / 10

-- ═══ Cycle detection ═══

/-- All `arr.slice(i) ++ arr.slice(0, i)` rotations generated by `canonicalize`. -/
def rotationsOf (arr : List String) : List (List String) :=
  (List.range arr.length).map (fun i => arr.drop i ++ arr.take i)

/-- The candidate list of `canonicalize`: all rotations of the sequence
followed by all rotations of its reversal. -/
def cycleCandidates (arr : List String) : List (List String) :=
  rotationsOf arr ++ rotationsOf arr.reverse

/-- The comparison key `candidate.join(",")` (as a code-point list). -/
def commaKey (c : List String) : List Char := (joinSep ',' c).data

/-- The first element of the stable sort by `localeCompare` on the comma
joins: the earliest candidate whose key is minimal. -/
def pickMinBy (key : List String → List Char) (h : List String)
    (t : List (List String)) : List String :=
  t.foldl (fun best c => if lexLt (key c) (key best) then c else best) h

/-- `canonicalize(arr)`: the lexicographically smallest rotation-or-reversed
rotation, joined with `"|"`. -/
def canonicalize (arr : List String) : String :=
  match cycleCandidates arr with
  | [] => ""
  | h :: t => joinSep '|' (pickMinBy commaKey h t)

/-- The emission check of the DFS: when the neighbor closes the cycle back to
`start` and the path is long enough, record the path unless its canonical key
was already emitted. -/
def emitCycle (minLen : Nat) (start next : String) (path : List String)
    (st : List (List String)) : List (List String) :=
  if next = start ∧ minLen ≤ path.length then
    if canonicalize path ∈ st.map canonicalize then st else st ++ [path]
  else st

/-- The recursive DFS of `detectCycles`.  The JS `visited` set always equals
the set of nodes on `path`, so the embedding tests membership in `path`
directly.  `st` is the list of emitted cycles in emission order; the JS
`emitted` key set equals `st.map canonicalize` at every step (both are pushed
together).  `fuel` only bounds the recursion; it never runs out before the
`path.length > max` guard fires (call sites supply `maxLen + 2`). -/
def dfsC (e : Engine) (minLen maxLen : Nat) (start : String) :
    Nat → String → List String → List (List String) → List (List String)
  | 0, _, _, st => st
  | fuel + 1, current, path, st =>
    if maxLen < path.length then st
    else
      match lookupA e.adjacency current with
      | none => st
      | some neighbors =>
        neighbors.foldl
          (fun st next =>
            if next ∈ path then emitCycle minLen start next path st
            else dfsC e minLen maxLen start fuel next (path ++ [next])
              (emitCycle minLen start next path st))
          st

/-- `detectCycles(min, max)`: DFS from every adjacency key. -/
def detectCycles (e : Engine) (minLen maxLen : Nat) : List (List String) :=
  e.adjacency.foldl
    (fun st kv => dfsC e minLen maxLen kv.1 (maxLen + 2) kv.1 [kv.1] st) []

/-- The `cycleAccounts` set accumulated by `analyze` from the detected cycles. -/
def cycleMembers (e : Engine) : List String :=
  (detectCycles e 3 5).foldl (fun acc cyc => cyc.foldl setAdd acc) []

-- ═══ Smurfing detection ═══

/-- Sort key of the incoming-transaction sort (`(a, b) => a._time - b._time`);
a NaN time is given key 0 (the JS comparator is then inconsistent and the
resulting order unspecified, so any fixed choice is a faithful model). -/
def sortKey (t : Transaction) : Int := (txTime t).getD 0

/-- The sorted incoming transactions of an account. -/
def incomingOf (account : String) (txs : List Transaction) : List Transaction :=
  List.insertionSort (fun a b => sortKey a ≤ sortKey b)
    (txs.filter (fun t => t.receiver_id == account))

/-- The `while (incoming[left]._time < windowEnd - WINDOW_MS) left++;` loop. -/
def advanceLeft (inc : List Transaction) (bound : Option Int) :
    Nat → Nat → Nat
  | 0, left => left
  | fuel + 1, left =>
    match inc[left]? with
    | none => left
    | some t =>
      if jsLt (txTime t) bound then advanceLeft inc bound fuel (left + 1) else left

/-- The two-pointer scan over `right` tracking the densest window. -/
def windowLoop (inc : List Transaction) :
    Nat → Nat → Nat → List Transaction → List Transaction
  | 0, _, _, best => best
  | fuel + 1, left, right, best =>
    match inc[right]? with
    | none => best
    | some tr =>
      let windowEnd := txTime tr
      let left' := advanceLeft inc (jsSub windowEnd (some WINDOW_MS)) inc.length left
      let window := (inc.take (right + 1)).drop left'
      let best' := if best.length < window.length then window else best
      windowLoop inc fuel left' (right + 1) best'

/-- The densest 72-hour window of a sorted incoming list. -/
def bestWindowOf (inc : List Transaction) : List Transaction :=
  windowLoop inc inc.length 0 0 []

/-- The distinct senders of a window, in `Set` insertion order. -/
def uniqueSendersOf (w : List Transaction) : List String :=
  dedupKeepFirst (w.map (·.sender_id))

/-- `bestWindow[0]._time` (the window being nonempty when used). -/
def windowStartOf (w : List Transaction) : Option Int :=
  match w with
  | [] => none
  | t :: _ => txTime t

/-- Mean amount of a window (only used on nonempty windows). -/
def avgAmountOf (w : List Transaction) : ℚ := sumAmounts w / (w.length : ℚ)

/-- Outgoing transactions of the account within `[windowStart, windowEnd]`. -/
def outgoingOf (account : String) (txs : List Transaction)
    (windowStart windowEnd : Option Int) : List Transaction :=
  txs.filter (fun t =>
    t.sender_id == account && jsGe (txTime t) windowStart && jsLe (txTime t) windowEnd)

/-- The risk formula of `detectSmurfing` (source lines 281-294). -/
def smurfRiskFormula (senders receivers : Nat) (hasFanOut : Bool) : ℚ :=
  let senderScore := jsMin ((senders : ℚ) / 30) 1
  let hubFactor := jsMin (((senders : ℚ) + (receivers : ℚ)) / 40) 1
  if hasFanOut then 1 / 2 * senderScore + 3 / 10 * hubFactor + 1 / 5
  else 1 / 2 * senderScore + 3 / 20

/-- The densest 72-hour window of the account's (sorted) incoming
transactions. -/
def smurfWindow (account : String) (txs : List Transaction) : List Transaction :=
  bestWindowOf (incomingOf account txs)

/-- The distinct senders of the densest window (`uniqueSenders`). -/
def smurfSenderList (account : String) (txs : List Transaction) : List String :=
  uniqueSendersOf (smurfWindow account txs)

/-- `windowStart`: time of the densest window's first transaction. -/
def smurfWindowStart (account : String) (txs : List Transaction) : Option Int :=
  windowStartOf (smurfWindow account txs)

/-- `windowEnd = windowStart + WINDOW_MS`. -/
def smurfWindowEnd (account : String) (txs : List Transaction) : Option Int :=
  jsAdd (smurfWindowStart account txs) (some WINDOW_MS)

/-- The outgoing transactions inside `[windowStart, windowEnd]`. -/
def smurfOutgoing (account : String) (txs : List Transaction) : List Transaction :=
  outgoingOf account txs (smurfWindowStart account txs) (smurfWindowEnd account txs)

/-- The distinct receivers of the fan-out window (`uniqueReceivers`). -/
def smurfReceiverList (account : String) (txs : List Transaction) : List String :=
  dedupKeepFirst ((smurfOutgoing account txs).map (·.receiver_id))

/-- `hasFanOut`: at least `MIN_UNIQUE` distinct receivers in the window. -/
def smurfHasFanOut (account : String) (txs : List Transaction) : Bool :=
  decide (MIN_UNIQUE ≤ (smurfReceiverList account txs).length)

/-- The risk of the account's densest window. -/
def smurfRisk (account : String) (txs : List Transaction) : ℚ :=
  smurfRiskFormula (smurfSenderList account txs).length
    (smurfReceiverList account txs).length (smurfHasFanOut account txs)

/-- The member list of an emitted smurfing ring, before deduplication. -/
def smurfAccounts (account : String) (txs : List Transaction) : List String :=
  if smurfHasFanOut account txs then
    account :: (smurfSenderList account txs ++ smurfReceiverList account txs)
  else account :: smurfSenderList account txs

/-- The `detectSmurfing` loop body for one `accountTx` entry; `none` models
every `continue`.  The successive guards mirror the source's order. -/
def smurfEval (e : Engine) (account : String) (txs : List Transaction) :
    Option (List String × ℚ) :=
  if isMerchantB e account none none then none
  else if (incomingOf account txs).length < MIN_UNIQUE then none
  else if (smurfWindow account txs).length < MIN_UNIQUE then none
  else if (smurfSenderList account txs).length < MIN_UNIQUE then none
  else if isMerchantB e account (some (smurfSenderList account txs).length)
      (some (avgAmountOf (smurfWindow account txs))) then none
  else if smurfRisk account txs < SMURFING_RISK_THRESHOLD then none
  else some (dedupKeepFirst (smurfAccounts account txs), smurfRisk account txs)

/-- `detectSmurfing()`: evaluate every `accountTx` entry in order. -/
def detectSmurfing (e : Engine) : List (List String × ℚ) :=
  e.accountTx.filterMap (fun kv => smurfEval e kv.1 kv.2)

-- ═══ Shell detection ═══

/-- Innermost loop of `detectShell`: candidates for a fixed `a, b, c` over a
given `d`. -/
def shellLoopD (e : Engine) (a b c d : String) :
    List (String × String × String × String) :=
  if d = a ∨ d = b ∨ d = c then []
  else if a ∈ nbrs e d then []
  else if !isTemporalChainB e a b c d then []
  else if shellRisk e a b c d < 3 / 5 then []
  else [(a, b, c, d)]

/-- Third loop of `detectShell`: candidates for a fixed `a, b` over a given `c`. -/
def shellLoopC (e : Engine) (cycleAccounts : List String) (a b c : String) :
    List (String × String × String × String) :=
  if c ∈ cycleAccounts then []
  else if !isShellIntermediateB e c then []
  else if c = a then []
  else (nbrs e c).flatMap (shellLoopD e a b c)

/-- Second loop of `detectShell`: candidates for a fixed `a` over a given `b`. -/
def shellLoopB (e : Engine) (cycleAccounts : List String) (a b : String) :
    List (String × String × String × String) :=
  if b ∈ cycleAccounts then []
  else if !isShellIntermediateB e b then []
  else (nbrs e b).flatMap (shellLoopC e cycleAccounts a b)

/-- Outer loop of `detectShell` for one adjacency entry. -/
def shellLoopA (e : Engine) (cycleAccounts : List String)
    (kv : String × List String) : List (String × String × String × String) :=
  if isMerchantB e kv.1 none none then []
  else if kv.1 ∈ cycleAccounts then []
  else kv.2.flatMap (shellLoopB e cycleAccounts kv.1)

/-- The candidate chains of `detectShell`, in loop order, after every guard
up to and including the risk floor (the `seen` dedup comes after). -/
def shellTuples (e : Engine) (cycleAccounts : List String) :
    List (String × String × String × String) :=
  e.adjacency.flatMap (shellLoopA e cycleAccounts)

structure ShellRing where
  accounts : List String
  risk : ℚ
deriving DecidableEq, Repr

/-- The ring record pushed by `detectShell` for a candidate tuple. -/
def shellRingOf (e : Engine) (t : String × String × String × String) : ShellRing :=
  { accounts := [t.1, t.2.1, t.2.2.1, t.2.2.2],
    risk := shellRisk e t.1 t.2.1 t.2.2.1 t.2.2.2 }

/-- The dedup step of `detectShell`: the JS `seen` key set equals the key
image of `rings` at every step (both are pushed together). -/
def shellFoldStep (e : Engine) (rings : List ShellRing)
    (t : String × String × String × String) : List ShellRing :=
  if joinSep '|' [t.1, t.2.1, t.2.2.1, t.2.2.2] ∈
      rings.map (fun r => joinSep '|' r.accounts) then rings
  else rings ++ [shellRingOf e t]

/-- `detectShell(cycleAccounts)`: the candidates deduplicated by their
`nodes.join("|")` key. -/
def detectShell (e : Engine) (cycleAccounts : List String) : List ShellRing :=
  (shellTuples e cycleAccounts).foldl (shellFoldStep e) []

-- ═══ Ring registry and entry point ═══

structure RingInput where
  accounts : List String
  pattern : Pattern
  risk : ℚ
deriving DecidableEq, Repr

/-- Clamp to `[0,1]` and scale to a one-decimal score in `[0,100]`. -/
def riskScoreOf (risk : ℚ) : ℚ := toFixed1 (jsMin (jsMax risk 0) 1 * 100)

/-- `String(counter).padStart(3, "0")`. -/
def padTo3 (n : Nat) : String :=
  let s := toString n
  if s.length < 3 then ⟨List.replicate (3 - s.length) '0' ++ s.data⟩ else s

/-- `` `RING_${String(counter).padStart(3, "0")}` ``. -/
def ringIdOf (counter : Nat) : String := "RING_" ++ padTo3 counter

/-- In-place update of an association list (JS `Map.set` on a present key
keeps the original position). -/
def replaceA {α : Type} : List (String × α) → String → α → List (String × α)
  | [], _, _ => []
  | (k, v) :: rest, key, nv =>
    if k = key then (k, nv) :: rest else (k, v) :: replaceA rest key nv

/-- The value an `addRing` member update stores for one account, as a
function of the previously stored record (`none` = unseen): record the ring's
score on first sight; otherwise take the higher score (and its ring id, on a
strict increase only) and append the pattern when not already present. -/
def updVal (old : Option SuspiciousAccount) (acc : String) (fr : FraudRing) :
    SuspiciousAccount :=
  match old with
  | none =>
    { account_id := acc, suspicion_score := fr.risk_score,
      detected_patterns := [fr.pattern_type], ring_id := fr.ring_id }
  | some existing =>
    let upd1 :=
      if existing.suspicion_score < fr.risk_score then
        { existing with suspicion_score := fr.risk_score, ring_id := fr.ring_id }
      else existing
    if fr.pattern_type ∈ upd1.detected_patterns then upd1
    else { upd1 with detected_patterns := upd1.detected_patterns ++ [fr.pattern_type] }

/-- The suspicious-map update of `addRing` for one non-merchant member:
insert at the end when unseen, update in place when seen. -/
def updateSusp (smap : List (String × SuspiciousAccount)) (acc : String)
    (fr : FraudRing) : List (String × SuspiciousAccount) :=
  match lookupA smap acc with
  | none => smap ++ [(acc, updVal none acc fr)]
  | some existing => replaceA smap acc (updVal (some existing) acc fr)

structure RegSt where
  counter : Nat
  rings : List FraudRing
  smap : List (String × SuspiciousAccount)
deriving Repr

/-- The member loop of `addRing`: update the suspicious map for every
non-merchant member of the ring. -/
def addRingMembers (e : Engine) (fr : FraudRing)
    (smap : List (String × SuspiciousAccount)) (members : List String) :
    List (String × SuspiciousAccount) :=
  members.foldl
    (fun m acc => if isMerchantB e acc none none then m else updateSusp m acc fr) smap

/-- `addRing(accounts, pattern, risk)`. -/
def addRing (e : Engine) (st : RegSt) (ri : RingInput) : RegSt :=
  let fr : FraudRing :=
    { ring_id := ringIdOf st.counter, member_accounts := ri.accounts,
      pattern_type := ri.pattern, risk_score := riskScoreOf ri.risk }
  { counter := st.counter + 1, rings := st.rings ++ [fr],
    smap := addRingMembers e fr st.smap ri.accounts }

/-- The rings of which an account is a member, in emission order. -/
def ringsOwning (acc : String) (rings : List FraudRing) : List FraudRing :=
  rings.filter (fun fr => decide (acc ∈ fr.member_accounts))

/-- All `addRing` calls of one `analyze` run, in order. -/
def registry (e : Engine) (inputs : List RingInput) : RegSt :=
  inputs.foldl (addRing e) { counter := 1, rings := [], smap := [] }

/-- The ring inputs fed to `addRing` by `analyze`, in order: cycles at fixed
risk 0.85, then smurfing, then shells. -/
def ringInputs (e : Engine) : List RingInput :=
  (detectCycles e 3 5).map (fun c => { accounts := c, pattern := .cycle, risk := 17 / 20 })
    ++ (detectSmurfing e).map (fun s => { accounts := s.1, pattern := .smurfing, risk := s.2 })
    ++ (detectShell e (cycleMembers e)).map
        (fun s => { accounts := s.accounts, pattern := .shell, risk := s.risk })

/-- The stable descending sort by `suspicion_score` of the final output. -/
def sortSusp (l : List SuspiciousAccount) : List SuspiciousAccount :=
  List.insertionSort (fun x y => y.suspicion_score ≤ x.suspicion_score) l

/-- Count of distinct accounts appearing as sender or receiver. -/
def allAccountsCount (txs : List Transaction) : Nat :=
  (txs.foldl (fun s t => setAdd (setAdd s t.sender_id) t.receiver_id) []).length

/-- `analyze()`: the public entry point.  `processing_time_seconds` is wall
clock time in the source and is modelled as 0. -/
def analyze (txs : List Transaction) : DetectionResult :=
  let e := buildGraph txs
  let st := registry e (ringInputs e)
  let suspicious := sortSusp (st.smap.map (·.2))
  { suspicious_accounts := suspicious
    fraud_rings := st.rings
    summary :=
      { total_accounts_analyzed := allAccountsCount txs
        suspicious_accounts_flagged := suspicious.length
        fraud_rings_detected := st.rings.length
        processing_time_seconds := 0 } }

-- ═══ Concrete input batches used by the claim theorems ═══

/-- Helper to build a transaction record. -/
def mkTx (i : Nat) (s r : String) (amt : ℚ) (ts : String) : Transaction :=
  { transaction_id := toString i, sender_id := s, receiver_id := r,
    amount := amt, timestamp := ts }

/-- A batch whose only transaction has an unparsable timestamp. -/
def unparsableBatch : List Transaction := [mkTx 1 "a" "b" 5 "oops"]

/-- Cycle `X → Y → D → X` plus shell chain `A → B → C → D` ending in the
cycle member `D`. -/
def shellCycleOverlapBatch : List Transaction :=
  [ mkTx 1 "A" "B" 100 "1000"
  , mkTx 2 "B" "C" 100 "2000"
  , mkTx 3 "C" "D" 100 "3000"
  , mkTx 4 "D" "X" 50 "400"
  , mkTx 5 "X" "Y" 50 "500"
  , mkTx 6 "Y" "D" 50 "600" ]

def shellCycleOverlapEngine : Engine := buildGraph shellCycleOverlapBatch

/-- Shell chain `w → x → y → z` whose first hop has cached time exactly 0 and
strictly increasing hop times `0 < 1000 < 2000`. -/
def epochZeroBatch : List Transaction :=
  [ mkTx 1 "w" "x" 100 "0"
  , mkTx 2 "x" "y" 100 "1000"
  , mkTx 3 "y" "z" 100 "2000" ]

def epochZeroEngine : Engine := buildGraph epochZeroBatch

/-- 20 distinct senders feeding `hub` inside one 72-hour window, and 15
distinct receivers paid out of it shortly after. -/
def smurfDemoBatch : List Transaction :=
  (List.range 20).map (fun i => mkTx i ("s" ++ toString i) "hub" 100 (toString (1000 + i * 10)))
    ++ (List.range 15).map
        (fun i => mkTx (100 + i) "hub" ("r" ++ toString i) 50 (toString (2000 + i * 10)))

def smurfDemoEngine : Engine := buildGraph smurfDemoBatch

/-- 30 distinct senders feeding `hub` inside one 72-hour window, with no
outgoing transactions at all (fan-in only). -/
def fanInOnlyBatch : List Transaction :=
  (List.range 30).map (fun i => mkTx i ("s" ++ toString i) "hub" 100 (toString (1000 + i * 10)))

def fanInOnlyEngine : Engine := buildGraph fanInOnlyBatch

/-- Exactly 10 distinct senders feeding `hub`, no outgoing transactions. -/
def tenSenderBatch : List Transaction :=
  (List.range 10).map (fun i => mkTx i ("s" ++ toString i) "hub" 100 (toString (1000 + i * 10)))

def tenSenderEngine : Engine := buildGraph tenSenderBatch

/-- The empty engine, used to exercise the registry in isolation. -/
def emptyEngine : Engine := buildGraph []

/-- Two ring inputs sharing the member `A`: a cycle scoring 85.0 and a shell
scoring 80.0. -/
def overlapInputs : List RingInput :=
  [ { accounts := ["A", "B"], pattern := .cycle, risk := 17 / 20 }
  , { accounts := ["A", "C"], pattern := .shell, risk := 4 / 5 } ]

/-- A merchant account: 101 incoming transactions of amount 5000 and no
outgoing ones. -/
def merchantBatch : List Transaction :=
  (List.range 101).map (fun i => mkTx i "F" "M" 5000 (toString (1000 + i)))

/-- The relation maintained between an account's stored suspicion record and
the list of rings owning the account so far: absent means no owned ring;
present means the score is that of the first maximal owned ring (whose id is
stored) and the patterns are the duplicate-free union over the owned rings. -/
def smapOwnedInv (owned : List FraudRing) (stored : Option SuspiciousAccount) :
    Prop :=
  match stored with
  | none => owned = []
  | some rec =>
    rec.detected_patterns.Nodup ∧
      (∀ p, p ∈ rec.detected_patterns ↔ ∃ fr ∈ owned, fr.pattern_type = p) ∧
      ∃ pre fr post, owned = pre ++ fr :: post ∧
        rec.ring_id = fr.ring_id ∧ rec.suspicion_score = fr.risk_score ∧
        (∀ fr' ∈ pre, fr'.risk_score < fr.risk_score) ∧
        (∀ fr' ∈ post, fr'.risk_score ≤ fr.risk_score)

/-- Equivalence of node sequences under rotation and reversal — the classes
the cycle canonicalization is meant to collapse. -/
def CycEquiv (l1 l2 : List String) : Prop :=
  List.IsRotated l1 l2 ∨ List.IsRotated l1.reverse l2

/-- Directed edge of the built graph. -/
def edgeOf (e : Engine) (a b : String) : Prop := b ∈ nbrs e a

/-- A simple directed cycle of the graph, written as its node sequence:
nonempty, duplicate-free, consecutive edges present, and a closing edge from
the last node back to the first. -/
def IsCycleOf (e : Engine) (l : List String) : Prop :=
  l ≠ [] ∧ l.Nodup ∧ List.Chain' (edgeOf e) l ∧
    ∀ x ∈ l.getLast?, ∀ y ∈ l.head?, edgeOf e x y

/-- Every account id mentioned by the adjacency structure. -/
def graphStrings (e : Engine) : List String :=
  e.adjacency.flatMap (fun kv => kv.1 :: kv.2)

/-- No id the adjacency mentions contains the character `ch` (the cycle
canonicalization joins ids with `","` and `"|"`, so ids containing those
characters can collide). -/
def charFreeIds (e : Engine) (ch : Char) : Prop :=
  ∀ s ∈ graphStrings e, ch ∉ s.data

/-- What `detectCycles` is supposed to emit: a simple cycle of the graph with
length within bounds, all of whose ids the adjacency mentions. -/
def CycleRes (e : Engine) (minL maxL : Nat) (r : List String) : Prop :=
  IsCycleOf e r ∧ minL ≤ r.length ∧ r.length ≤ maxL ∧ ∀ s ∈ r, s ∈ graphStrings e

/-- A batch with two genuine simple cycles, `a → b → c → d → a` and
`a|b → c → d → a|b`, whose node sequences collide on the canonical key
`"a|b|c|d"` because one id contains the `"|"` join separator. -/
def cycleKeyCollisionBatch : List Transaction :=
  [ mkTx 1 "a" "b" 1 "1"
  , mkTx 2 "b" "c" 1 "1"
  , mkTx 3 "c" "d" 1 "1"
  , mkTx 4 "d" "a" 1 "1"
  , mkTx 5 "a|b" "c" 1 "1"
  , mkTx 6 "d" "a|b" 1 "1" ]

def cycleKeyCollisionEngine : Engine := buildGraph cycleKeyCollisionBatch

/-- A batch with two distinct shell chains, `p|q → r → s → t` and
`p → q|r → s → t`, that both pass every `detectShell` guard yet collide on
the dedup key `"p|q|r|s|t"` because ids contain the `"|"` join separator. -/
def shellKeyCollisionBatch : List Transaction :=
  [ mkTx 1 "p|q" "r" 100 "1000"
  , mkTx 2 "r" "s" 100 "2000"
  , mkTx 3 "s" "t" 200 "5000"
  , mkTx 4 "p" "q|r" 100 "1500"
  , mkTx 5 "q|r" "s" 100 "2500" ]

def shellKeyCollisionEngine : Engine := buildGraph shellKeyCollisionBatch

-- ═══ Theorems ═══

/-- Claim C1 (status: code_bug).  The claim — and the spec, which flags the
reference behavior as a defect — require an unparsable timestamp to fail the
whole analysis with an error.  The code instead caches `NaN`
(`new Date("oops").getTime()`) and completes, returning a full
`DetectionResult`: on a batch whose only transaction has timestamp `"oops"`,
the timestamp is unparsable, yet `analyze` returns a complete result. -/
theorem C1_unparsable_timestamp_still_yields_result :
    parseTimestamp "oops" = none ∧
    analyze unparsableBatch =
      { suspicious_accounts := []
        fraud_rings := []
        summary :=
          { total_accounts_analyzed := 2
            suspicious_accounts_flagged := 0
            fraud_rings_detected := 0
            processing_time_seconds := 0 } } := by
  constructor
  · rfl
  · decide

/-- Membership in the innermost `detectShell` loop implies its guards. -/
theorem mem_shellLoopD {e : Engine} {a b c d : String}
    {x : String × String × String × String} (h : x ∈ shellLoopD e a b c d) :
    x = (a, b, c, d) ∧ d ≠ a ∧ d ≠ b ∧ d ≠ c ∧ a ∉ nbrs e d ∧
      isTemporalChainB e a b c d = true ∧ 3 / 5 ≤ shellRisk e a b c d := by
  unfold shellLoopD at h
  split at h
  · exact absurd h (List.not_mem_nil _)
  split at h
  · exact absurd h (List.not_mem_nil _)
  split at h
  · exact absurd h (List.not_mem_nil _)
  split at h
  · exact absurd h (List.not_mem_nil _)
  rename_i hD hBack hTemp hRisk
  push_neg at hD
  rw [List.mem_singleton] at h
  simp only [Bool.not_eq_true', Bool.not_eq_false] at hTemp
  exact ⟨h, hD.1, hD.2.1, hD.2.2, hBack, hTemp, le_of_not_lt hRisk⟩

/-- Membership in the third `detectShell` loop implies its guards. -/
theorem mem_shellLoopC {e : Engine} {cyc : List String} {a b c : String}
    {x : String × String × String × String} (h : x ∈ shellLoopC e cyc a b c) :
    c ∉ cyc ∧ isShellIntermediateB e c = true ∧ c ≠ a ∧
      ∃ d ∈ nbrs e c, x ∈ shellLoopD e a b c d := by
  unfold shellLoopC at h
  split at h
  · exact absurd h (List.not_mem_nil _)
  split at h
  · exact absurd h (List.not_mem_nil _)
  split at h
  · exact absurd h (List.not_mem_nil _)
  rename_i hCcyc hCshell hCA
  rw [List.mem_flatMap] at h
  simp only [Bool.not_eq_true', Bool.not_eq_false] at hCshell
  exact ⟨hCcyc, hCshell, hCA, h⟩

/-- Membership in the second `detectShell` loop implies its guards. -/
theorem mem_shellLoopB {e : Engine} {cyc : List String} {a b : String}
    {x : String × String × String × String} (h : x ∈ shellLoopB e cyc a b) :
    b ∉ cyc ∧ isShellIntermediateB e b = true ∧
      ∃ c ∈ nbrs e b, x ∈ shellLoopC e cyc a b c := by
  unfold shellLoopB at h
  split at h
  · exact absurd h (List.not_mem_nil _)
  split at h
  · exact absurd h (List.not_mem_nil _)
  rename_i hBcyc hBshell
  rw [List.mem_flatMap] at h
  simp only [Bool.not_eq_true', Bool.not_eq_false] at hBshell
  exact ⟨hBcyc, hBshell, h⟩

/-- Membership in the outer `detectShell` loop implies its guards. -/
theorem mem_shellLoopA {e : Engine} {cyc : List String} {kv : String × List String}
    {x : String × String × String × String} (h : x ∈ shellLoopA e cyc kv) :
    isMerchantB e kv.1 none none = false ∧ kv.1 ∉ cyc ∧
      ∃ b ∈ kv.2, x ∈ shellLoopB e cyc kv.1 b := by
  unfold shellLoopA at h
  split at h
  · exact absurd h (List.not_mem_nil _)
  split at h
  · exact absurd h (List.not_mem_nil _)
  rename_i hMerch hAcyc
  rw [List.mem_flatMap] at h
  rw [Bool.not_eq_true] at hMerch
  exact ⟨hMerch, hAcyc, h⟩

/-- Every tuple produced by `shellTuples` has passed every guard of the
`detectShell` loops, including the temporal-chain check and the risk floor. -/
theorem mem_shellTuples {e : Engine} {cyc : List String} {a b c d : String}
    (h : (a, b, c, d) ∈ shellTuples e cyc) :
    isMerchantB e a none none = false ∧ a ∉ cyc ∧ b ∉ cyc ∧
      isShellIntermediateB e b = true ∧ c ∉ cyc ∧ isShellIntermediateB e c = true ∧
      c ≠ a ∧ d ≠ a ∧ d ≠ b ∧ d ≠ c ∧ a ∉ nbrs e d ∧
      isTemporalChainB e a b c d = true ∧ 3 / 5 ≤ shellRisk e a b c d := by
  rw [shellTuples, List.mem_flatMap] at h
  obtain ⟨kv, _hkv, h⟩ := h
  obtain ⟨hMerch, hAcyc, b', _hb', h⟩ := mem_shellLoopA h
  obtain ⟨hBcyc, hBshell, c', _hc', h⟩ := mem_shellLoopB h
  obtain ⟨hCcyc, hCshell, hCA, d', _hd', h⟩ := mem_shellLoopC h
  obtain ⟨hx, hDA, hDB, hDC, hBack, hTemp, hRisk⟩ := mem_shellLoopD h
  rw [Prod.mk.injEq, Prod.mk.injEq, Prod.mk.injEq] at hx
  obtain ⟨ha, hb, hc, hd⟩ := hx
  subst ha; subst hb; subst hc; subst hd
  exact ⟨hMerch, hAcyc, hBcyc, hBshell, hCcyc, hCshell, hCA, hDA, hDB, hDC,
    hBack, hTemp, hRisk⟩

/-- Invariant preservation through the `detectShell` dedup fold. -/
theorem shellFold_sound (e : Engine) (P : ShellRing → Prop) :
    ∀ (l : List (String × String × String × String)) (init : List ShellRing),
      (∀ r ∈ init, P r) → (∀ t ∈ l, P (shellRingOf e t)) →
      ∀ r ∈ l.foldl (shellFoldStep e) init, P r := by
  intro l
  induction l with
  | nil => intro init hinit _ r hr; exact hinit r hr
  | cons t l ih =>
    intro init hinit hstep r hr
    rw [List.foldl_cons] at hr
    refine ih (shellFoldStep e init t) ?_ (fun u hu => hstep u (List.mem_cons_of_mem _ hu)) r hr
    intro u hu
    unfold shellFoldStep at hu
    split at hu
    · exact hinit u hu
    · rcases List.mem_append.1 hu with hu | hu
      · exact hinit u hu
      · rw [List.mem_singleton] at hu
        exact hu ▸ hstep t (List.mem_cons_self t l)

/-- Every ring emitted by `detectShell` is the ring record of some candidate
tuple that passed all guards. -/
theorem detectShell_sound (e : Engine) (cyc : List String) (r : ShellRing)
    (hr : r ∈ detectShell e cyc) :
    ∃ a b c d, (a, b, c, d) ∈ shellTuples e cyc ∧ r = shellRingOf e (a, b, c, d) := by
  refine shellFold_sound e
    (fun u => ∃ a b c d, (a, b, c, d) ∈ shellTuples e cyc ∧ u = shellRingOf e (a, b, c, d))
    (shellTuples e cyc) [] (by intro u hu; exact absurd hu (List.not_mem_nil _)) ?_ r hr
  intro t ht
  exact ⟨t.1, t.2.1, t.2.2.1, t.2.2.2, ht, rfl⟩

/-- Claim C9 (confirmed).  `isTemporalChain` tests each looked-up hop time for
JS falsiness, which conflates cached epoch time 0 with a missing transaction:
whenever the representative transaction of one of the pairs `A→B`, `B→C`,
`C→D` has cached time exactly 0, the temporal check returns `false` and no
shell ring with that node sequence is ever emitted, regardless of the actual
ordering of the hop times. -/
theorem C9_epoch_zero_blocks_temporal_chain (e : Engine) (cyc : List String)
    (a b c d : String)
    (h : getTxTime e a b = some (some 0) ∨ getTxTime e b c = some (some 0) ∨
      getTxTime e c d = some (some 0)) :
    isTemporalChainB e a b c d = false ∧
      ∀ r ∈ detectShell e cyc, r.accounts ≠ [a, b, c, d] := by
  have hfalse : isTemporalChainB e a b c d = false := by
    simp only [isTemporalChainB]
    rcases h with h | h | h <;> rw [h] <;> simp [jsFalsy]
  refine ⟨hfalse, ?_⟩
  intro r hr hacc
  obtain ⟨a', b', c', d', ht, hreq⟩ := detectShell_sound e cyc r hr
  rw [hreq] at hacc
  simp only [shellRingOf, List.cons.injEq, and_true] at hacc
  obtain ⟨ha, hb, hc, hd⟩ := hacc
  subst ha; subst hb; subst hc; subst hd
  have := (mem_shellTuples ht).2.2.2.2.2.2.2.2.2.2.2.1
  rw [hfalse] at this
  exact Bool.false_ne_true this

/-- Claim C9 witness: on the concrete chain `w → x → y → z` with hop times
`0 < 1000 < 2000`, the first hop time is exactly 0, the temporal check fails
and no shell ring is emitted. -/
theorem C9_witness :
    getTxTime epochZeroEngine "w" "x" = some (some 0) ∧
      (isTemporalChainB epochZeroEngine "w" "x" "y" "z" = false ∧
        ∀ r ∈ detectShell epochZeroEngine [], r.accounts ≠ ["w", "x", "y", "z"]) :=
  ⟨by decide,
    C9_epoch_zero_blocks_temporal_chain epochZeroEngine [] "w" "x" "y" "z"
      (Or.inl (by decide))⟩

/-- Claim C2 (corrected).  The first three nodes `A`, `B`, `C` of every
emitted shell ring are excluded from the cycle-member set of the same
analysis; the terminal node `D` is not checked against that set (see
`C2_counterexample`). -/
theorem C2_shell_excludes_cycle_members_from_ABC (txs : List Transaction)
    (r : ShellRing)
    (hr : r ∈ detectShell (buildGraph txs) (cycleMembers (buildGraph txs))) :
    ∃ a b c d, r.accounts = [a, b, c, d] ∧
      a ∉ cycleMembers (buildGraph txs) ∧ b ∉ cycleMembers (buildGraph txs) ∧
      c ∉ cycleMembers (buildGraph txs) := by
  obtain ⟨a, b, c, d, ht, hreq⟩ := detectShell_sound _ _ _ hr
  have g := mem_shellTuples ht
  exact ⟨a, b, c, d, by rw [hreq]; rfl, g.2.1, g.2.2.1, g.2.2.2.2.1⟩

/-- Claim C2 counterexample: on `shellCycleOverlapBatch` the cycle detector
confirms `D` (member set `{D, X, Y}`), yet the emitted shell ring's member
list `[A, B, C, D]` contains `D` — a cycle member appears in a shell ring. -/
theorem C2_counterexample :
    "D" ∈ cycleMembers shellCycleOverlapEngine ∧
      detectShell shellCycleOverlapEngine (cycleMembers shellCycleOverlapEngine) =
        [{ accounts := ["A", "B", "C", "D"], risk := 4 / 5 }] := by
  exact ⟨by decide, by decide⟩

/-- Claim C2 witness: instantiating the amended exclusion statement on the
concrete overlap batch. -/
theorem C2_witness :
    ∃ a b c d,
      ({ accounts := ["A", "B", "C", "D"], risk := 4 / 5 } : ShellRing).accounts
          = [a, b, c, d] ∧
        a ∉ cycleMembers (buildGraph shellCycleOverlapBatch) ∧
        b ∉ cycleMembers (buildGraph shellCycleOverlapBatch) ∧
        c ∉ cycleMembers (buildGraph shellCycleOverlapBatch) :=
  C2_shell_excludes_cycle_members_from_ABC shellCycleOverlapBatch
    { accounts := ["A", "B", "C", "D"], risk := 4 / 5 } (by decide)

/-- Unfolding the guard chain of `smurfEval`: an emitted ring has passed
every guard, and carries exactly the deduplicated member list and risk. -/
theorem smurfEval_some {e : Engine} {acc : String} {txs : List Transaction}
    {r : List String × ℚ} (h : smurfEval e acc txs = some r) :
    isMerchantB e acc none none = false ∧
      MIN_UNIQUE ≤ (incomingOf acc txs).length ∧
      MIN_UNIQUE ≤ (smurfWindow acc txs).length ∧
      MIN_UNIQUE ≤ (smurfSenderList acc txs).length ∧
      SMURFING_RISK_THRESHOLD ≤ smurfRisk acc txs ∧
      r = (dedupKeepFirst (smurfAccounts acc txs), smurfRisk acc txs) := by
  unfold smurfEval at h
  split at h
  · exact Option.noConfusion h
  split at h
  · exact Option.noConfusion h
  split at h
  · exact Option.noConfusion h
  split at h
  · exact Option.noConfusion h
  split at h
  · exact Option.noConfusion h
  split at h
  · exact Option.noConfusion h
  rename_i hM hInc hWin hSend _hM2 hRisk
  rw [Bool.not_eq_true] at hM
  injection h with h
  exact ⟨hM, Nat.le_of_not_lt hInc, Nat.le_of_not_lt hWin, Nat.le_of_not_lt hSend,
    le_of_not_lt hRisk, h.symm⟩

/-- Claim C6 (confirmed).  A smurfing ring is emitted for an account only if
its densest 72-hour window has at least 10 transactions and 10 distinct
senders and the computed risk is at least 0.65; with exactly 10 unique
senders and no fan-out the risk is `0.5·(10/30)+0.15 = 19/60 ≈ 0.317` and
nothing is emitted; 20 unique senders with 15 unique receivers give risk
`191/240 ≈ 0.796`, emitted as a ring scoring 79.6. -/
theorem C6_smurfing_emission_thresholds :
    (∀ (e : Engine) (acc : String) (txs : List Transaction) (r : List String × ℚ),
        smurfEval e acc txs = some r →
          MIN_UNIQUE ≤ (smurfWindow acc txs).length ∧
            MIN_UNIQUE ≤ (smurfSenderList acc txs).length ∧
            r.2 = smurfRisk acc txs ∧ SMURFING_RISK_THRESHOLD ≤ r.2) ∧
    (∀ (e : Engine) (acc : String) (txs : List Transaction),
        (smurfSenderList acc txs).length = 10 → smurfHasFanOut acc txs = false →
          smurfRisk acc txs = 1 / 2 * (10 / 30) + 3 / 20 ∧ smurfEval e acc txs = none) ∧
    smurfRiskFormula 20 15 true = 191 / 240 ∧
    riskScoreOf (191 / 240) = 796 / 10 ∧
    detectSmurfing smurfDemoEngine =
      [("hub" :: ((List.range 20).map (fun i => "s" ++ toString i) ++
          (List.range 15).map (fun i => "r" ++ toString i)), 191 / 240)] := by
  refine ⟨?_, ?_, by decide, by decide, by decide⟩
  · intro e acc txs r h
    obtain ⟨_, _, hWin, hSend, hRisk, hr⟩ := smurfEval_some h
    exact ⟨hWin, hSend, by rw [hr], by rw [hr]; exact hRisk⟩
  · intro e acc txs hSend hFan
    have hval : smurfRisk acc txs = 1 / 2 * (10 / 30) + 3 / 20 := by
      rw [smurfRisk, hSend, hFan]
      simp only [smurfRiskFormula, jsMin]
      norm_num
    refine ⟨hval, ?_⟩
    unfold smurfEval
    split
    · rfl
    split
    · rfl
    split
    · rfl
    split
    · rfl
    split
    · rfl
    split
    · rfl
    rename_i hRisk
    exact absurd (by rw [hval]; norm_num [SMURFING_RISK_THRESHOLD]) hRisk

/-- Claim C6 witness: the 20-sender / 15-receiver batch instantiates the
emission conditions at the emitted `hub` ring, and the 10-sender batch with
no fan-out instantiates the non-emission part. -/
theorem C6_witness :
    (MIN_UNIQUE ≤ (smurfWindow "hub" smurfDemoBatch).length ∧
        MIN_UNIQUE ≤ (smurfSenderList "hub" smurfDemoBatch).length ∧
        (("hub" :: ((List.range 20).map (fun i => "s" ++ toString i) ++
            (List.range 15).map (fun i => "r" ++ toString i)), (191 : ℚ) / 240) :
              List String × ℚ).2 = smurfRisk "hub" smurfDemoBatch ∧
        SMURFING_RISK_THRESHOLD ≤ ((("hub" :: ((List.range 20).map (fun i => "s" ++ toString i) ++
            (List.range 15).map (fun i => "r" ++ toString i)), (191 : ℚ) / 240)) :
              List String × ℚ).2) ∧
      (smurfRisk "hub" tenSenderBatch = 1 / 2 * (10 / 30) + 3 / 20 ∧
        smurfEval tenSenderEngine "hub" tenSenderBatch = none) := by
  constructor
  · exact C6_smurfing_emission_thresholds.1 smurfDemoEngine "hub" smurfDemoBatch _ (by decide)
  · exact C6_smurfing_emission_thresholds.2.1 tenSenderEngine "hub" tenSenderBatch
      (by decide) (by decide)

/-- Claim C10 (confirmed).  A smurfing ring emitted without fan-out saturated
the sender score: the densest window has at least 30 distinct senders, the
risk is exactly `0.5·1 + 0.15 = 0.65`, and the ring's score is exactly 65.0. -/
theorem C10_fanin_only_rings_have_30_senders_and_score_65 :
    (∀ (e : Engine) (acc : String) (txs : List Transaction) (r : List String × ℚ),
        smurfEval e acc txs = some r → smurfHasFanOut acc txs = false →
          30 ≤ (smurfSenderList acc txs).length ∧ r.2 = 13 / 20) ∧
    riskScoreOf (13 / 20) = 65 := by
  refine ⟨?_, by decide⟩
  intro e acc txs r h hFan
  obtain ⟨_, _, _, _, hRisk, hr⟩ := smurfEval_some h
  rw [smurfRisk, hFan] at hRisk
  have hval : smurfRiskFormula (smurfSenderList acc txs).length
      (smurfReceiverList acc txs).length false = 13 / 20 ∧
      30 ≤ (smurfSenderList acc txs).length := by
    set s : Nat := (smurfSenderList acc txs).length with hs
    rw [SMURFING_RISK_THRESHOLD] at hRisk
    simp only [smurfRiskFormula, Bool.false_eq_true, if_false, jsMin] at hRisk ⊢
    split at hRisk
    · rename_i hle
      have h1 : (1 : ℚ) ≤ (s : ℚ) / 30 := by linarith
      have h30 : (30 : ℚ) ≤ (s : ℚ) := by
        rw [le_div_iff₀ (by norm_num : (0 : ℚ) < 30)] at h1
        linarith
      have heq : (s : ℚ) / 30 = 1 := le_antisymm hle h1
      rw [if_pos hle, heq]
      exact ⟨by norm_num, by exact_mod_cast h30⟩
    · rename_i hgt
      have hgt' : (1 : ℚ) < (s : ℚ) / 30 := not_le.1 hgt
      have h30 : (30 : ℚ) < (s : ℚ) := by
        rw [lt_div_iff₀ (by norm_num : (0 : ℚ) < 30)] at hgt'
        linarith
      rw [if_neg hgt]
      exact ⟨by norm_num, by exact_mod_cast le_of_lt h30⟩
  rw [hr]
  refine ⟨hval.2, ?_⟩
  show smurfRisk acc txs = 13 / 20
  rw [smurfRisk, hFan]
  exact hval.1

/-- Claim C10 witness: the 30-sender fan-in-only batch emits a ring with
exactly 30 senders and risk 0.65, scoring 65.0. -/
theorem C10_witness :
    (30 ≤ (smurfSenderList "hub" fanInOnlyBatch).length ∧
        ((("hub" :: (List.range 30).map (fun i => "s" ++ toString i), (13 : ℚ) / 20)) :
          List String × ℚ).2 = 13 / 20) ∧
      riskScoreOf (13 / 20) = 65 :=
  ⟨C10_fanin_only_rings_have_30_senders_and_score_65.1 fanInOnlyEngine "hub"
      fanInOnlyBatch _ (by decide) (by decide),
    C10_fanin_only_rings_have_30_senders_and_score_65.2⟩

-- ═══ Association-list lemmas for the ring registry ═══

theorem lookupA_mem {α : Type} {l : List (String × α)} {k : String} {v : α}
    (h : lookupA l k = some v) : (k, v) ∈ l := by
  induction l with
  | nil => exact Option.noConfusion h
  | cons kv rest ih =>
    obtain ⟨k', v'⟩ := kv
    rw [lookupA] at h
    split at h
    · rename_i heq
      injection h with h
      subst heq; subst h
      exact List.mem_cons_self _ _
    · exact List.mem_cons_of_mem _ (ih h)

theorem lookupA_ne_none_of_mem {α : Type} {l : List (String × α)} {k : String}
    {v : α} (h : (k, v) ∈ l) : lookupA l k ≠ none := by
  induction l with
  | nil => exact absurd h (List.not_mem_nil _)
  | cons kv rest ih =>
    obtain ⟨k', v'⟩ := kv
    rw [lookupA]
    split
    · exact fun hn => Option.noConfusion hn
    · rename_i hne
      rcases List.mem_cons.1 h with h | h
      · injection h with h1 h2
        exact absurd h1.symm hne
      · exact ih h

theorem lookupA_append_of_none {α : Type} {l1 : List (String × α)} {k : String}
    (h : lookupA l1 k = none) (l2 : List (String × α)) :
    lookupA (l1 ++ l2) k = lookupA l2 k := by
  induction l1 with
  | nil => rfl
  | cons kv rest ih =>
    obtain ⟨k', v'⟩ := kv
    rw [lookupA] at h
    rw [List.cons_append, lookupA]
    split at h
    · exact Option.noConfusion h
    · rename_i hne
      rw [if_neg hne]
      exact ih h

theorem lookupA_append_of_some {α : Type} {l1 : List (String × α)} {k : String}
    {v : α} (h : lookupA l1 k = some v) (l2 : List (String × α)) :
    lookupA (l1 ++ l2) k = some v := by
  induction l1 with
  | nil => exact Option.noConfusion h
  | cons kv rest ih =>
    obtain ⟨k', v'⟩ := kv
    rw [lookupA] at h
    rw [List.cons_append, lookupA]
    split at h
    · rename_i heq
      rw [if_pos heq]
      exact h
    · rename_i hne
      rw [if_neg hne]
      exact ih h

theorem lookupA_replaceA_ne {α : Type} {l : List (String × α)} {k x : String}
    (nv : α) (hx : x ≠ k) : lookupA (replaceA l k nv) x = lookupA l x := by
  induction l with
  | nil => rfl
  | cons kv rest ih =>
    obtain ⟨k', v'⟩ := kv
    rw [replaceA]
    split
    · rename_i heq
      subst heq
      rw [lookupA, lookupA, if_neg (fun h => hx h.symm), if_neg (fun h => hx h.symm)]
    · rw [lookupA, lookupA]
      split
      · rfl
      · exact ih

theorem lookupA_replaceA_eq {α : Type} {l : List (String × α)} {k : String}
    {v : α} (h : lookupA l k = some v) (nv : α) :
    lookupA (replaceA l k nv) k = some nv := by
  induction l with
  | nil => exact Option.noConfusion h
  | cons kv rest ih =>
    obtain ⟨k', v'⟩ := kv
    rw [lookupA] at h
    rw [replaceA]
    split at h
    · rename_i heq
      rw [if_pos heq, lookupA, if_pos heq]
    · rename_i hne
      rw [if_neg hne, lookupA, if_neg hne]
      exact ih h

theorem mem_replaceA {α : Type} {l : List (String × α)} {k : String} {nv : α}
    {kv : String × α} (h : kv ∈ replaceA l k nv) : kv ∈ l ∨ kv = (k, nv) := by
  induction l with
  | nil => exact absurd h (List.not_mem_nil _)
  | cons kv' rest ih =>
    obtain ⟨k', v'⟩ := kv'
    rw [replaceA] at h
    split at h
    · rename_i heq
      subst heq
      rcases List.mem_cons.1 h with h | h
      · exact Or.inr h
      · exact Or.inl (List.mem_cons_of_mem _ h)
    · rcases List.mem_cons.1 h with h | h
      · exact Or.inl (h ▸ List.mem_cons_self _ _)
      · rcases ih h with h | h
        · exact Or.inl (List.mem_cons_of_mem _ h)
        · exact Or.inr h

theorem updateSusp_lookup_self {smap : List (String × SuspiciousAccount)}
    {acc : String} {fr : FraudRing} :
    lookupA (updateSusp smap acc fr) acc =
      some (updVal (lookupA smap acc) acc fr) := by
  unfold updateSusp
  cases h : lookupA smap acc with
  | none =>
    rw [lookupA_append_of_none h, lookupA, if_pos rfl]
  | some existing =>
    exact lookupA_replaceA_eq h _

theorem updateSusp_lookup_ne {smap : List (String × SuspiciousAccount)}
    {acc x : String} {fr : FraudRing} (hx : x ≠ acc) :
    lookupA (updateSusp smap acc fr) x = lookupA smap x := by
  unfold updateSusp
  cases h : lookupA smap acc with
  | none =>
    cases h2 : lookupA smap x with
    | none =>
      rw [lookupA_append_of_none h2, lookupA, if_neg (fun he => hx he.symm), lookupA]
    | some v => rw [lookupA_append_of_some h2]
  | some existing => exact lookupA_replaceA_ne _ hx

theorem mem_updateSusp {smap : List (String × SuspiciousAccount)} {acc : String}
    {fr : FraudRing} {kv : String × SuspiciousAccount}
    (h : kv ∈ updateSusp smap acc fr) :
    kv ∈ smap ∨ kv = (acc, updVal (lookupA smap acc) acc fr) := by
  unfold updateSusp at h
  cases h2 : lookupA smap acc with
  | none =>
    rw [h2] at h
    rcases List.mem_append.1 h with h | h
    · exact Or.inl h
    · rw [List.mem_singleton] at h
      exact Or.inr h
  | some existing =>
    rw [h2] at h
    rcases mem_replaceA h with h | h
    · exact Or.inl h
    · exact Or.inr h

/-- Updating with the same ring twice stores the same value as updating
once (the score is already at least the ring's and its pattern present). -/
theorem updVal_idem {old : Option SuspiciousAccount} {acc : String}
    {fr : FraudRing} : updVal (some (updVal old acc fr)) acc fr = updVal old acc fr := by
  cases old with
  | none =>
    simp only [updVal]
    rw [if_neg (lt_irrefl _), if_pos (List.mem_singleton.2 rfl)]
  | some existing =>
    obtain ⟨aid, sc, pats, rid⟩ := existing
    by_cases h1 : sc < fr.risk_score
    · by_cases h2 : fr.pattern_type ∈ pats
      · simp [updVal, h1, h2]
      · simp [updVal, h1, h2]
    · by_cases h2 : fr.pattern_type ∈ pats
      · simp [updVal, h1, h2]
      · simp [updVal, h1, h2]

/-- Effect of the `addRing` member loop on one account's stored record:
non-merchant members get exactly one effective update, everyone else is
untouched. -/
theorem addRingMembers_lookup (e : Engine) (fr : FraudRing) (acc : String) :
    ∀ (members : List String) (smap : List (String × SuspiciousAccount)),
      lookupA (addRingMembers e fr smap members) acc =
        if acc ∈ members ∧ isMerchantB e acc none none = false then
          some (updVal (lookupA smap acc) acc fr)
        else lookupA smap acc := by
  intro members
  induction members with
  | nil =>
    intro smap
    rw [if_neg (fun hc => List.not_mem_nil acc hc.1)]
    rfl
  | cons a rest ih =>
    intro smap
    have hstep : addRingMembers e fr smap (a :: rest) =
        addRingMembers e fr
          (if isMerchantB e a none none = true then smap else updateSusp smap a fr)
          rest := rfl
    rw [hstep]
    by_cases hax : acc = a
    · subst hax
      by_cases hM : isMerchantB e acc none none = true
      · have hm1 : (if isMerchantB e acc none none = true then smap
            else updateSusp smap acc fr) = smap := by simp [hM]
        rw [hm1, ih,
          if_neg (by simp [hM] :
            ¬(acc ∈ rest ∧ isMerchantB e acc none none = false)),
          if_neg (by simp [hM] :
            ¬(acc ∈ acc :: rest ∧ isMerchantB e acc none none = false))]
      · rw [Bool.not_eq_true] at hM
        have hm1 : (if isMerchantB e acc none none = true then smap
            else updateSusp smap acc fr) = updateSusp smap acc fr := by simp [hM]
        rw [hm1, ih, if_pos (⟨List.mem_cons_self _ _, hM⟩ :
          acc ∈ acc :: rest ∧ isMerchantB e acc none none = false)]
        by_cases hr : acc ∈ rest
        · rw [if_pos (⟨hr, hM⟩ : acc ∈ rest ∧ isMerchantB e acc none none = false),
            updateSusp_lookup_self, updVal_idem]
        · rw [if_neg (fun hc => hr hc.1), updateSusp_lookup_self]
    · have hlk : lookupA (if isMerchantB e a none none = true then smap
          else updateSusp smap a fr) acc = lookupA smap acc := by
        split
        · rfl
        · exact updateSusp_lookup_ne hax
      rw [ih, hlk]
      by_cases hM : isMerchantB e acc none none = false
      · by_cases hr : acc ∈ rest
        · rw [if_pos (⟨hr, hM⟩ : acc ∈ rest ∧ isMerchantB e acc none none = false),
            if_pos (⟨List.mem_cons_of_mem _ hr, hM⟩ :
              acc ∈ a :: rest ∧ isMerchantB e acc none none = false)]
        · rw [if_neg (fun hc => hr hc.1),
            if_neg (fun hc => (List.mem_cons.1 hc.1).elim hax hr :
              ¬(acc ∈ a :: rest ∧ isMerchantB e acc none none = false))]
      · rw [if_neg (fun hc => hM hc.2 :
            ¬(acc ∈ rest ∧ isMerchantB e acc none none = false)),
          if_neg (fun hc => hM hc.2 :
            ¬(acc ∈ a :: rest ∧ isMerchantB e acc none none = false))]

/-- Merchant accounts are never added to the suspicious map. -/
theorem registry_merchant_lookup_none (e : Engine) (inputs : List RingInput)
    (m : String) (hm : isMerchantB e m none none = true) :
    lookupA (registry e inputs).smap m = none := by
  have main : ∀ (l : List RingInput) (st : RegSt), lookupA st.smap m = none →
      lookupA (l.foldl (addRing e) st).smap m = none := by
    intro l
    induction l with
    | nil => exact fun st h => h
    | cons ri rest ih =>
      intro st h
      rw [List.foldl_cons]
      refine ih _ ?_
      show lookupA (addRingMembers e _ st.smap ri.accounts) m = none
      rw [addRingMembers_lookup, if_neg (show
        ¬(m ∈ ri.accounts ∧ isMerchantB e m none none = false) from
        fun hc => by rw [hm] at hc; exact Bool.noConfusion hc.2)]
      exact h
  exact main inputs _ rfl

/-- The stored record of `updVal` keeps the account id of the key. -/
theorem updVal_account_id {smap : List (String × SuspiciousAccount)}
    {acc : String} {fr : FraudRing}
    (hinv : ∀ kv ∈ smap, kv.2.account_id = kv.1) :
    (updVal (lookupA smap acc) acc fr).account_id = acc := by
  cases h : lookupA smap acc with
  | none => rfl
  | some existing =>
    have hex : existing.account_id = acc := hinv (acc, existing) (lookupA_mem h)
    obtain ⟨aid, sc, pats, rid⟩ := existing
    by_cases h1 : sc < fr.risk_score
    · by_cases h2 : fr.pattern_type ∈ pats
      · simpa [updVal, h1, h2] using hex
      · simpa [updVal, h1, h2] using hex
    · by_cases h2 : fr.pattern_type ∈ pats
      · simpa [updVal, h1, h2] using hex
      · simpa [updVal, h1, h2] using hex

/-- Every stored record carries its own key as `account_id`. -/
theorem registry_accountId (e : Engine) (inputs : List RingInput) :
    ∀ kv ∈ (registry e inputs).smap, kv.2.account_id = kv.1 := by
  have upd : ∀ (smap : List (String × SuspiciousAccount)) (acc : String)
      (fr : FraudRing), (∀ kv ∈ smap, kv.2.account_id = kv.1) →
      ∀ kv ∈ updateSusp smap acc fr, kv.2.account_id = kv.1 := by
    intro smap acc fr hinv kv hkv
    rcases mem_updateSusp hkv with h | h
    · exact hinv kv h
    · rw [h]
      exact updVal_account_id hinv
  have mems : ∀ (members : List String) (fr : FraudRing)
      (smap : List (String × SuspiciousAccount)),
      (∀ kv ∈ smap, kv.2.account_id = kv.1) →
      ∀ kv ∈ addRingMembers e fr smap members, kv.2.account_id = kv.1 := by
    intro members
    induction members with
    | nil => exact fun fr smap h => h
    | cons a rest ih =>
      intro fr smap hinv
      have hstep : addRingMembers e fr smap (a :: rest) =
          addRingMembers e fr
            (if isMerchantB e a none none = true then smap else updateSusp smap a fr)
            rest := rfl
      rw [hstep]
      refine ih fr _ ?_
      split
      · exact hinv
      · exact upd smap a fr hinv
  have main : ∀ (l : List RingInput) (st : RegSt),
      (∀ kv ∈ st.smap, kv.2.account_id = kv.1) →
      ∀ kv ∈ (l.foldl (addRing e) st).smap, kv.2.account_id = kv.1 := by
    intro l
    induction l with
    | nil => exact fun st h => h
    | cons ri rest ih =>
      intro st h
      rw [List.foldl_cons]
      exact ih _ (mems ri.accounts _ st.smap h)
  exact main inputs _ (fun kv hkv => absurd hkv (List.not_mem_nil kv))

/-- Claim C7 (confirmed).  An account classified merchant or payroll by the
full-history predicate never appears in `suspicious_accounts`, whatever else
the batch contains (it may still be listed among a ring's member accounts;
only the suspicious map skips it). -/
theorem C7_merchant_never_suspicious (txs : List Transaction) (acc : String)
    (hm : isMerchantB (buildGraph txs) acc none none = true) :
    ∀ sa ∈ (analyze txs).suspicious_accounts, sa.account_id ≠ acc := by
  intro sa hsa heq
  have hmem : sa ∈ ((registry (buildGraph txs) (ringInputs (buildGraph txs))).smap.map
      Prod.snd) := by
    have hperm := List.perm_insertionSort
      (fun x y : SuspiciousAccount => y.suspicion_score ≤ x.suspicion_score)
      ((registry (buildGraph txs) (ringInputs (buildGraph txs))).smap.map Prod.snd)
    exact hperm.mem_iff.1 hsa
  obtain ⟨kv, hkv, hkv2⟩ := List.mem_map.1 hmem
  have hid := registry_accountId (buildGraph txs) (ringInputs (buildGraph txs)) kv hkv
  have hk1 : kv.1 = acc := by rw [← hid, hkv2, heq]
  obtain ⟨k, v⟩ := kv
  simp only at hk1
  subst hk1
  exact lookupA_ne_none_of_mem hkv
    (registry_merchant_lookup_none (buildGraph txs) (ringInputs (buildGraph txs)) _ hm)

/-- Claim C7 witness: the account `M` with 150-like fan-in (101 incoming
transactions of amount 5000, zero outgoing) is merchant-classified and absent
from the suspicious accounts of its analysis. -/
theorem C7_witness :
    "M" ∉ (analyze merchantBatch).suspicious_accounts.map SuspiciousAccount.account_id := by
  intro hmem
  obtain ⟨sa, hsa, heq⟩ := List.mem_map.1 hmem
  exact C7_merchant_never_suspicious merchantBatch "M" (by decide) sa hsa heq

theorem updVal_patterns_nodup {rec : SuspiciousAccount} {acc : String}
    {fr : FraudRing} (h : rec.detected_patterns.Nodup) :
    (updVal (some rec) acc fr).detected_patterns.Nodup := by
  obtain ⟨aid, sc, pats, rid⟩ := rec
  simp only at h
  by_cases h1 : sc < fr.risk_score
  · by_cases h2 : fr.pattern_type ∈ pats
    · simpa [updVal, h1, h2] using h
    · simp [updVal, h1, h2, List.nodup_append, h2]
      exact h
  · by_cases h2 : fr.pattern_type ∈ pats
    · simpa [updVal, h1, h2] using h
    · simp [updVal, h1, h2, List.nodup_append, h2]
      exact h

theorem updVal_patterns_mem {rec : SuspiciousAccount} {acc : String}
    {fr : FraudRing} {p : Pattern} :
    p ∈ (updVal (some rec) acc fr).detected_patterns ↔
      p ∈ rec.detected_patterns ∨ p = fr.pattern_type := by
  obtain ⟨aid, sc, pats, rid⟩ := rec
  by_cases h1 : sc < fr.risk_score
  · by_cases h2 : fr.pattern_type ∈ pats
    · simp only [updVal, h1, if_true, h2]
      constructor
      · exact fun h => Or.inl (by simpa [h1, h2] using h)
      · intro h
        rcases h with h | h
        · simpa [h1, h2] using h
        · simp [h1, h2, h]
    · simp [updVal, h1, h2, List.mem_append]
  · by_cases h2 : fr.pattern_type ∈ pats
    · constructor
      · exact fun h => Or.inl (by simpa [updVal, h1, h2] using h)
      · intro h
        rcases h with h | h
        · simpa [updVal, h1, h2] using h
        · simp [updVal, h1, h2, h]
    · simp [updVal, h1, h2, List.mem_append]

theorem updVal_score_lt {rec : SuspiciousAccount} {acc : String} {fr : FraudRing}
    (h : rec.suspicion_score < fr.risk_score) :
    (updVal (some rec) acc fr).suspicion_score = fr.risk_score ∧
      (updVal (some rec) acc fr).ring_id = fr.ring_id := by
  obtain ⟨aid, sc, pats, rid⟩ := rec
  simp only at h
  by_cases h2 : fr.pattern_type ∈ pats
  · simp [updVal, h, h2]
  · simp [updVal, h, h2]

theorem updVal_score_ge {rec : SuspiciousAccount} {acc : String} {fr : FraudRing}
    (h : ¬rec.suspicion_score < fr.risk_score) :
    (updVal (some rec) acc fr).suspicion_score = rec.suspicion_score ∧
      (updVal (some rec) acc fr).ring_id = rec.ring_id := by
  obtain ⟨aid, sc, pats, rid⟩ := rec
  simp only at h
  by_cases h2 : fr.pattern_type ∈ pats
  · simp [updVal, h, h2]
  · simp [updVal, h, h2]

theorem ringsOwning_append (acc : String) (l1 l2 : List FraudRing) :
    ringsOwning acc (l1 ++ l2) = ringsOwning acc l1 ++ ringsOwning acc l2 :=
  List.filter_append l1 l2

/-- One `addRing` step preserves the owned-ring characterization of one
non-merchant account's stored record. -/
theorem smapOwnedInv_step (acc : String) (owned : List FraudRing)
    (old : Option SuspiciousAccount) (fr : FraudRing)
    (hinv : smapOwnedInv owned old) :
    smapOwnedInv (owned ++ [fr]) (some (updVal old acc fr)) := by
  cases old with
  | none =>
    have howned : owned = [] := hinv
    subst howned
    refine ⟨by simp [updVal], ?_, [], fr, [], by simp, rfl, rfl, ?_, ?_⟩
    · intro p
      simp [updVal]
      exact comm
    · intro fr' h
      exact absurd h (List.not_mem_nil _)
    · intro fr' h
      exact absurd h (List.not_mem_nil _)
  | some rec =>
    obtain ⟨hnd, hpat, pre, f0, post, hdec, hrid, hsc, hpre, hpost⟩ := hinv
    refine ⟨updVal_patterns_nodup hnd, ?_, ?_⟩
    · intro p
      rw [updVal_patterns_mem, hpat p]
      constructor
      · intro h
        rcases h with ⟨fr', hfr', hp⟩ | hp
        · exact ⟨fr', List.mem_append_left _ hfr', hp⟩
        · exact ⟨fr, List.mem_append_right _ (List.mem_singleton.2 rfl), hp.symm⟩
      · intro ⟨fr', hfr', hp⟩
        rcases List.mem_append.1 hfr' with h | h
        · exact Or.inl ⟨fr', h, hp⟩
        · rw [List.mem_singleton] at h
          exact Or.inr (by rw [← hp, h])
    · by_cases hlt : rec.suspicion_score < fr.risk_score
      · refine ⟨owned, fr, [], by simp, (updVal_score_lt hlt).2, (updVal_score_lt hlt).1, ?_, ?_⟩
        · intro fr' h
          rw [hdec] at h
          rcases List.mem_append.1 h with h | h
          · exact lt_trans (hsc ▸ hpre fr' h) hlt
          · rcases List.mem_cons.1 h with h | h
            · rw [h, ← hsc]
              exact hlt
            · exact lt_of_le_of_lt (hsc ▸ hpost fr' h) hlt
        · intro fr' h
          exact absurd h (List.not_mem_nil _)
      · refine ⟨pre, f0, post ++ [fr], by rw [hdec]; simp, ?_, ?_, hpre, ?_⟩
        · rw [(updVal_score_ge hlt).2, hrid]
        · rw [(updVal_score_ge hlt).1, hsc]
        · intro fr' h
          rcases List.mem_append.1 h with h | h
          · exact hpost fr' h
          · rw [List.mem_singleton] at h
            subst h
            rw [← hsc]
            exact not_lt.1 hlt

/-- The owned-ring characterization holds of the registry's final state for
every non-merchant account. -/
theorem registry_smap_inv (e : Engine) (inputs : List RingInput) (acc : String)
    (hM : isMerchantB e acc none none = false) :
    smapOwnedInv (ringsOwning acc (registry e inputs).rings)
      (lookupA (registry e inputs).smap acc) := by
  have main : ∀ (l : List RingInput) (st : RegSt),
      smapOwnedInv (ringsOwning acc st.rings) (lookupA st.smap acc) →
      smapOwnedInv (ringsOwning acc (l.foldl (addRing e) st).rings)
        (lookupA (l.foldl (addRing e) st).smap acc) := by
    intro l
    induction l with
    | nil => exact fun st h => h
    | cons ri rest ih =>
      intro st hinv
      rw [List.foldl_cons]
      refine ih (addRing e st ri) ?_
      have hrings : (addRing e st ri).rings = st.rings ++
          [{ ring_id := ringIdOf st.counter, member_accounts := ri.accounts,
             pattern_type := ri.pattern, risk_score := riskScoreOf ri.risk }] := rfl
      have hsmap : (addRing e st ri).smap = addRingMembers e
          { ring_id := ringIdOf st.counter, member_accounts := ri.accounts,
            pattern_type := ri.pattern, risk_score := riskScoreOf ri.risk }
          st.smap ri.accounts := rfl
      rw [hrings, hsmap, addRingMembers_lookup, ringsOwning_append]
      by_cases hmem : acc ∈ ri.accounts
      · have hsingle : ringsOwning acc
            [{ ring_id := ringIdOf st.counter, member_accounts := ri.accounts,
               pattern_type := ri.pattern, risk_score := riskScoreOf ri.risk }] =
            [{ ring_id := ringIdOf st.counter, member_accounts := ri.accounts,
               pattern_type := ri.pattern, risk_score := riskScoreOf ri.risk }] := by
          simp [ringsOwning, List.filter, hmem]
        rw [hsingle, if_pos ⟨hmem, hM⟩]
        exact smapOwnedInv_step acc _ _ _ hinv
      · have hsingle : ringsOwning acc
            [{ ring_id := ringIdOf st.counter, member_accounts := ri.accounts,
               pattern_type := ri.pattern, risk_score := riskScoreOf ri.risk }] = [] := by
          simp [ringsOwning, List.filter, hmem]
        rw [hsingle, List.append_nil, if_neg (fun hc => hmem hc.1)]
        exact hinv
  exact main inputs { counter := 1, rings := [], smap := [] } rfl

/-- Claim C3 (confirmed).  For a non-merchant account belonging to two or
more emitted rings, the stored record's suspicion score is the maximum ring
score, its pattern set is the duplicate-free union of the owning rings'
patterns, and its ring id is that of the first ring attaining the maximum
(later rings replace it only on a strictly greater score). -/
theorem C3_multi_ring_merge (e : Engine) (inputs : List RingInput) (acc : String)
    (hM : isMerchantB e acc none none = false)
    (h2 : 2 ≤ (ringsOwning acc (registry e inputs).rings).length) :
    ∃ rec, lookupA (registry e inputs).smap acc = some rec ∧
      rec.detected_patterns.Nodup ∧
      (∀ p, p ∈ rec.detected_patterns ↔
        ∃ fr ∈ ringsOwning acc (registry e inputs).rings, fr.pattern_type = p) ∧
      (∀ fr ∈ ringsOwning acc (registry e inputs).rings,
        fr.risk_score ≤ rec.suspicion_score) ∧
      ∃ pre fr post, ringsOwning acc (registry e inputs).rings = pre ++ fr :: post ∧
        rec.ring_id = fr.ring_id ∧ rec.suspicion_score = fr.risk_score ∧
        (∀ fr' ∈ pre, fr'.risk_score < fr.risk_score) ∧
        (∀ fr' ∈ post, fr'.risk_score ≤ fr.risk_score) := by
  have hinv := registry_smap_inv e inputs acc hM
  cases hold : lookupA (registry e inputs).smap acc with
  | none =>
    rw [hold] at hinv
    have hempty : ringsOwning acc (registry e inputs).rings = [] := hinv
    rw [hempty] at h2
    simp at h2
  | some rec =>
    rw [hold] at hinv
    obtain ⟨hnd, hpat, pre, fr, post, hdec, hrid, hsc, hpre, hpost⟩ := hinv
    refine ⟨rec, rfl, hnd, hpat, ?_, pre, fr, post, hdec, hrid, hsc, hpre, hpost⟩
    intro fr' h
    rw [hdec] at h
    rw [hsc]
    rcases List.mem_append.1 h with h | h
    · exact le_of_lt (hpre fr' h)
    · rcases List.mem_cons.1 h with h | h
      · exact le_of_eq (by rw [h])
      · exact hpost fr' h

/-- Claim C3 witness: two rings sharing member `A` (cycle at 85.0, then shell
at 80.0) leave `A` with score 85.0, both patterns, and ring id RING_001. -/
theorem C3_witness :
    2 ≤ (ringsOwning "A" (registry emptyEngine overlapInputs).rings).length ∧
      ∃ rec, lookupA (registry emptyEngine overlapInputs).smap "A" = some rec ∧
        rec.detected_patterns.Nodup ∧
        (∀ p, p ∈ rec.detected_patterns ↔
          ∃ fr ∈ ringsOwning "A" (registry emptyEngine overlapInputs).rings,
            fr.pattern_type = p) ∧
        (∀ fr ∈ ringsOwning "A" (registry emptyEngine overlapInputs).rings,
          fr.risk_score ≤ rec.suspicion_score) ∧
        ∃ pre fr post,
          ringsOwning "A" (registry emptyEngine overlapInputs).rings = pre ++ fr :: post ∧
          rec.ring_id = fr.ring_id ∧ rec.suspicion_score = fr.risk_score ∧
          (∀ fr' ∈ pre, fr'.risk_score < fr.risk_score) ∧
          (∀ fr' ∈ post, fr'.risk_score ≤ fr.risk_score) :=
  ⟨by decide, C3_multi_ring_merge emptyEngine overlapInputs "A" (by decide) (by decide)⟩

-- ═══ Canonicalization lemmas ═══

theorem pickMinBy_mem (key : List String → List Char) :
    ∀ (t : List (List String)) (h : List String), pickMinBy key h t ∈ h :: t := by
  intro t
  induction t with
  | nil => exact fun h => List.mem_singleton.2 rfl
  | cons c rest ih =>
    intro h
    have hstep : pickMinBy key h (c :: rest) =
        pickMinBy key (if lexLt (key c) (key h) then c else h) rest := rfl
    rw [hstep]
    rcases List.mem_cons.1 (ih (if lexLt (key c) (key h) then c else h)) with hm | hm
    · rw [hm]
      split
      · exact List.mem_cons_of_mem _ (List.mem_cons_self _ _)
      · exact List.mem_cons_self _ _
    · exact List.mem_cons_of_mem _ (List.mem_cons_of_mem _ hm)

theorem pickMinBy_min (key : List String → List Char) :
    ∀ (t : List (List String)) (h : List String),
      ∀ c ∈ h :: t, ¬ key c < key (pickMinBy key h t) := by
  intro t
  induction t with
  | nil =>
    intro h c hc
    rw [List.mem_singleton] at hc
    rw [hc]
    exact lt_irrefl _
  | cons c0 rest ih =>
    intro h c hc
    have hstep : pickMinBy key h (c0 :: rest) =
        pickMinBy key (if lexLt (key c0) (key h) then c0 else h) rest := rfl
    rw [hstep]
    by_cases hlt : lexLt (key c0) (key h) = true
    · rw [if_pos hlt]
      rw [lexLt, decide_eq_true_iff] at hlt
      rcases List.mem_cons.1 hc with hch | hc2
      · rw [hch]
        exact lt_asymm
          (lt_of_le_of_lt (not_lt.1 (ih c0 c0 (List.mem_cons_self _ _))) hlt)
      · exact ih c0 c hc2
    · rw [if_neg hlt]
      rw [lexLt, decide_eq_true_iff] at hlt
      rcases List.mem_cons.1 hc with hch | hc2
      · rw [hch]
        exact ih h h (List.mem_cons_self _ _)
      · rcases List.mem_cons.1 hc2 with hcc | hc3
        · rw [hcc]
          exact not_lt.2 (le_trans (not_lt.1 (ih h h (List.mem_cons_self _ _)))
            (not_lt.1 hlt))
        · exact ih h c (List.mem_cons_of_mem _ hc3)

/-- Splitting at the first separator occurrence is unambiguous. -/
theorem sep_split_inj {sep : Char} : ∀ (x : List Char) {y u v : List Char},
    sep ∉ x → sep ∉ y → x ++ sep :: u = y ++ sep :: v → x = y ∧ u = v := by
  intro x
  induction x with
  | nil =>
    intro y u v _ hy heq
    cases y with
    | nil =>
      rw [List.nil_append, List.nil_append] at heq
      injection heq with _ h2
      exact ⟨rfl, h2⟩
    | cons b bs =>
      exfalso
      rw [List.nil_append, List.cons_append] at heq
      injection heq with h1 _
      exact hy (by rw [← h1]; exact List.mem_cons_self _ _)
  | cons a as ih =>
    intro y u v hx hy heq
    cases y with
    | nil =>
      exfalso
      rw [List.nil_append, List.cons_append] at heq
      injection heq with h1 _
      exact hx (by rw [← h1]; exact List.mem_cons_self _ _)
    | cons b bs =>
      rw [List.cons_append, List.cons_append] at heq
      injection heq with h1 h2
      obtain ⟨hab, huv⟩ :=
        ih (fun hs => hx (List.mem_cons_of_mem _ hs))
          (fun hs => hy (List.mem_cons_of_mem _ hs)) h2
      exact ⟨by rw [h1, hab], huv⟩

/-- `join(sep)` is injective on nonempty lists of separator-free pieces. -/
theorem joinSepData_inj {sep : Char} : ∀ {l1 l2 : List (List Char)},
    l1 ≠ [] → l2 ≠ [] → (∀ s ∈ l1, sep ∉ s) → (∀ s ∈ l2, sep ∉ s) →
    joinSepData sep l1 = joinSepData sep l2 → l1 = l2 := by
  intro l1
  induction l1 with
  | nil => exact fun h1 _ _ _ _ => absurd rfl h1
  | cons x xs ih =>
    intro l2 _ h2 hf1 hf2 heq
    cases l2 with
    | nil => exact absurd rfl h2
    | cons y ys =>
      cases xs with
      | nil =>
        cases ys with
        | nil =>
          rw [show joinSepData sep [x] = x from rfl,
            show joinSepData sep [y] = y from rfl] at heq
          rw [heq]
        | cons z zs =>
          exfalso
          rw [show joinSepData sep [x] = x from rfl,
            show joinSepData sep (y :: z :: zs) =
              y ++ sep :: joinSepData sep (z :: zs) from rfl] at heq
          exact hf1 x (List.mem_cons_self _ _)
            (heq ▸ List.mem_append_right _ (List.mem_cons_self _ _))
      | cons x2 xs2 =>
        cases ys with
        | nil =>
          exfalso
          rw [show joinSepData sep [y] = y from rfl,
            show joinSepData sep (x :: x2 :: xs2) =
              x ++ sep :: joinSepData sep (x2 :: xs2) from rfl] at heq
          exact hf2 y (List.mem_cons_self _ _)
            (heq ▸ List.mem_append_right _ (List.mem_cons_self _ _))
        | cons z zs =>
          rw [show joinSepData sep (x :: x2 :: xs2) =
              x ++ sep :: joinSepData sep (x2 :: xs2) from rfl,
            show joinSepData sep (y :: z :: zs) =
              y ++ sep :: joinSepData sep (z :: zs) from rfl] at heq
          obtain ⟨hxy, hJ⟩ := sep_split_inj x (hf1 x (List.mem_cons_self _ _))
            (hf2 y (List.mem_cons_self _ _)) heq
          have htail : x2 :: xs2 = z :: zs :=
            @ih (z :: zs) (List.cons_ne_nil _ _) (List.cons_ne_nil _ _)
              (fun s hs => hf1 s (List.mem_cons_of_mem _ hs))
              (fun s hs => hf2 s (List.mem_cons_of_mem _ hs)) hJ
          rw [hxy, htail]

/-- `arr.join(sep)` is injective on nonempty arrays of separator-free ids. -/
theorem joinSep_inj {sep : Char} {c1 c2 : List String} (hn1 : c1 ≠ [])
    (hn2 : c2 ≠ []) (h1 : ∀ s ∈ c1, sep ∉ s.data) (h2 : ∀ s ∈ c2, sep ∉ s.data)
    (heq : joinSep sep c1 = joinSep sep c2) : c1 = c2 := by
  have hj : joinSepData sep (c1.map String.data) =
      joinSepData sep (c2.map String.data) := congrArg String.data heq
  have hmap := @joinSepData_inj sep (c1.map String.data) (c2.map String.data)
    (fun hc => hn1 (List.map_eq_nil_iff.1 hc)) (fun hc => hn2 (List.map_eq_nil_iff.1 hc))
    (fun s hs => by obtain ⟨a, ha, rfl⟩ := List.mem_map.1 hs; exact h1 a ha)
    (fun s hs => by obtain ⟨a, ha, rfl⟩ := List.mem_map.1 hs; exact h2 a ha) hj
  exact List.map_injective_iff.2
    (fun a b hab => by cases a; cases b; exact congrArg String.mk hab) hmap

theorem mem_rotationsOf {arr : List String} (h : arr ≠ []) {c : List String} :
    c ∈ rotationsOf arr ↔ List.IsRotated arr c := by
  unfold rotationsOf
  rw [List.mem_map]
  constructor
  · rintro ⟨i, hi, rfl⟩
    rw [List.mem_range] at hi
    exact ⟨i, List.rotate_eq_drop_append_take (le_of_lt hi)⟩
  · rintro ⟨n, rfl⟩
    have hpos : 0 < arr.length := List.length_pos.2 h
    refine ⟨n % arr.length, List.mem_range.2 (Nat.mod_lt _ hpos), ?_⟩
    rw [← List.rotate_eq_drop_append_take (le_of_lt (Nat.mod_lt _ hpos))]
    exact List.rotate_mod arr n

theorem mem_cycleCandidates {arr c : List String} (h : arr ≠ []) :
    c ∈ cycleCandidates arr ↔
      (List.IsRotated arr c ∨ List.IsRotated arr.reverse c) := by
  unfold cycleCandidates
  rw [List.mem_append, mem_rotationsOf h,
    mem_rotationsOf (fun hr => h (List.reverse_eq_nil_iff.1 hr))]

theorem cycleCandidates_nonempty {arr : List String} (h : arr ≠ []) :
    cycleCandidates arr ≠ [] := by
  intro hc
  have := List.append_eq_nil.1 hc
  have hrot : rotationsOf arr = [] := this.1
  unfold rotationsOf at hrot
  rw [List.map_eq_nil_iff, List.range_eq_nil] at hrot
  exact h (List.length_eq_zero.1 hrot)

theorem cycleCandidates_elem_subset {arr c : List String}
    (hc : c ∈ cycleCandidates arr) : ∀ s ∈ c, s ∈ arr := by
  intro s hs
  rcases List.mem_append.1 hc with h | h
  · obtain ⟨i, _, rfl⟩ := List.mem_map.1 h
    rcases List.mem_append.1 hs with h2 | h2
    · exact List.drop_subset _ _ h2
    · exact List.take_subset _ _ h2
  · obtain ⟨i, _, rfl⟩ := List.mem_map.1 h
    rcases List.mem_append.1 hs with h2 | h2
    · exact List.mem_reverse.1 (List.drop_subset _ _ h2)
    · exact List.mem_reverse.1 (List.take_subset _ _ h2)

theorem cycleCandidates_length {arr c : List String}
    (hc : c ∈ cycleCandidates arr) : c.length = arr.length := by
  rcases List.mem_append.1 hc with h | h
  · obtain ⟨i, _, rfl⟩ := List.mem_map.1 h
    rw [List.length_append, List.length_drop, List.length_take]
    omega
  · obtain ⟨i, _, rfl⟩ := List.mem_map.1 h
    rw [List.length_append, List.length_drop, List.length_take,
      List.length_reverse]
    omega

theorem canonicalize_spec {arr : List String} (h : arr ≠ []) :
    ∃ c ∈ cycleCandidates arr, canonicalize arr = joinSep '|' c ∧
      ∀ c' ∈ cycleCandidates arr, ¬ commaKey c' < commaKey c := by
  cases hcand : cycleCandidates arr with
  | nil => exact absurd hcand (cycleCandidates_nonempty h)
  | cons h0 t =>
    refine ⟨pickMinBy commaKey h0 t, ?_, ?_, ?_⟩
    · exact pickMinBy_mem commaKey t h0
    · simp only [canonicalize, hcand]
    · intro c' hc'
      exact pickMinBy_min commaKey t h0 c' hc'

/-- Canonicalization is invariant across a rotation-or-reversal class when no
id contains the comparison separator `','`. -/
theorem canonicalize_eq_of_equiv {l1 l2 : List String} (h1 : l1 ≠ [])
    (hfree : ∀ s ∈ l1, ',' ∉ s.data) (heq : CycEquiv l1 l2) :
    canonicalize l2 = canonicalize l1 := by
  have hlen : l2.length = l1.length := by
    rcases heq with h | h
    · exact h.perm.length_eq.symm
    · rw [← h.perm.length_eq, List.length_reverse]
  have h2 : l2 ≠ [] := by
    intro hc
    rw [hc] at hlen
    exact h1 (List.length_eq_zero.1 hlen.symm)
  have hsets : ∀ c, c ∈ cycleCandidates l2 ↔ c ∈ cycleCandidates l1 := by
    intro c
    rw [mem_cycleCandidates h2, mem_cycleCandidates h1]
    rcases heq with h | h
    · constructor
      · rintro (hr | hr)
        · exact Or.inl (h.trans hr)
        · exact Or.inr (h.reverse.trans hr)
      · rintro (hr | hr)
        · exact Or.inl (h.symm.trans hr)
        · exact Or.inr (h.reverse.symm.trans hr)
    · have hrev : List.IsRotated l1 l2.reverse := by
        have := h.reverse
        rwa [List.reverse_reverse] at this
      constructor
      · rintro (hr | hr)
        · exact Or.inr (h.trans hr)
        · exact Or.inl (hrev.trans hr)
      · rintro (hr | hr)
        · exact Or.inr (hrev.symm.trans hr)
        · exact Or.inl (h.symm.trans hr)
  obtain ⟨ca, hca, hja, hmina⟩ := canonicalize_spec h1
  obtain ⟨cb, hcb, hjb, hminb⟩ := canonicalize_spec h2
  have hcb1 : cb ∈ cycleCandidates l1 := (hsets cb).1 hcb
  have hca2 : ca ∈ cycleCandidates l2 := (hsets ca).2 hca
  have hkey : commaKey ca = commaKey cb :=
    le_antisymm (not_lt.1 (hmina cb hcb1)) (not_lt.1 (hminb ca hca2))
  have hna : ca ≠ [] := by
    intro hc
    have hl := cycleCandidates_length hca
    rw [hc] at hl
    exact h1 (List.length_eq_zero.1 hl.symm)
  have hnb : cb ≠ [] := by
    intro hc
    have hl := cycleCandidates_length hcb1
    rw [hc] at hl
    exact h1 (List.length_eq_zero.1 hl.symm)
  have hjoin : joinSep ',' ca = joinSep ',' cb := congrArg String.mk hkey
  have heqc : ca = cb := joinSep_inj hna hnb
    (fun s hs => hfree s (cycleCandidates_elem_subset hca s hs))
    (fun s hs => hfree s (cycleCandidates_elem_subset hcb1 s hs)) hjoin
  rw [hjb, hja, heqc]

-- ═══ DFS fold helpers ═══

theorem foldl_append_mono {α β : Type} (g : List α → β → List α)
    (hg : ∀ st x, ∃ t, g st x = st ++ t) :
    ∀ (l : List β) (st : List α), ∃ t, l.foldl g st = st ++ t := by
  intro l
  induction l with
  | nil => exact fun st => ⟨[], (List.append_nil st).symm⟩
  | cons x xs ih =>
    intro st
    rw [List.foldl_cons]
    obtain ⟨t1, ht1⟩ := hg st x
    obtain ⟨t2, ht2⟩ := ih (g st x)
    exact ⟨t1 ++ t2, by rw [ht2, ht1, List.append_assoc]⟩

theorem foldl_pres {α β : Type} (g : List α → β → List α) (P : α → Prop)
    (l : List β)
    (hg : ∀ st x, x ∈ l → (∀ r ∈ st, P r) → ∀ r ∈ g st x, P r) :
    ∀ st, (∀ r ∈ st, P r) → ∀ r ∈ l.foldl g st, P r := by
  induction l with
  | nil => exact fun st h => h
  | cons x xs ih =>
    intro st hst
    rw [List.foldl_cons]
    exact ih (fun st' y hy => hg st' y (List.mem_cons_of_mem _ hy))
      (g st x) (hg st x (List.mem_cons_self _ _) hst)

theorem foldl_mem_target {α β : Type} (g : List α → β → List α)
    (key : α → String) (tgt : String)
    (hmono : ∀ st x, ∃ t, g st x = st ++ t) :
    ∀ (l : List β) (x : β), x ∈ l → (∀ st, tgt ∈ (g st x).map key) →
      ∀ st, tgt ∈ (l.foldl g st).map key := by
  intro l
  induction l with
  | nil => exact fun x hx _ _ => absurd hx (List.not_mem_nil _)
  | cons y ys ih =>
    intro x hx hhit st
    rw [List.foldl_cons]
    rcases List.mem_cons.1 hx with hxy | hxy
    · obtain ⟨t, ht⟩ := foldl_append_mono g hmono ys (g st y)
      rw [ht, List.map_append]
      exact List.mem_append_left _ (hxy ▸ hhit st)
    · exact ih x hxy hhit (g st y)

theorem emitCycle_mono (minL : Nat) (start next : String) (path : List String)
    (st : List (List String)) : ∃ t, emitCycle minL start next path st = st ++ t := by
  unfold emitCycle
  split
  · split
    · exact ⟨[], (List.append_nil st).symm⟩
    · exact ⟨[path], rfl⟩
  · exact ⟨[], (List.append_nil st).symm⟩

/-- `dfsC` only appends to the emitted list. -/
theorem dfsC_mono (e : Engine) (minL maxL : Nat) (start : String) :
    ∀ (fuel : Nat) (current : String) (path : List String)
      (st : List (List String)),
      ∃ t, dfsC e minL maxL start fuel current path st = st ++ t := by
  intro fuel
  induction fuel with
  | zero => exact fun current path st => ⟨[], (List.append_nil st).symm⟩
  | succ fuel ih =>
    intro current path st
    rw [dfsC]
    split
    · exact ⟨[], (List.append_nil st).symm⟩
    · cases lookupA e.adjacency current with
      | none => exact ⟨[], (List.append_nil st).symm⟩
      | some neighbors =>
        refine foldl_append_mono _ ?_ neighbors st
        intro st' next
        obtain ⟨t1, ht1⟩ := emitCycle_mono minL start next path st'
        split
        · exact ⟨t1, ht1⟩
        · obtain ⟨t2, ht2⟩ := ih next (path ++ [next]) (emitCycle minL start next path st')
          exact ⟨t1 ++ t2, by rw [ht2, ht1, List.append_assoc]⟩

theorem head?_append_left {α : Type} {l1 : List α} (l2 : List α) (h : l1 ≠ []) :
    (l1 ++ l2).head? = l1.head? := by
  cases l1 with
  | nil => exact absurd rfl h
  | cons a t => rfl

/-- Soundness of the DFS: starting from a valid partial path, everything it
emits beyond the incoming state is a simple cycle within bounds. -/
theorem dfsC_sound (e : Engine) (minL maxL : Nat) (start : String) :
    ∀ (fuel : Nat) (current : String) (path : List String)
      (st : List (List String)),
      path ≠ [] → path.head? = some start → path.getLast? = some current →
      path.Nodup → List.Chain' (edgeOf e) path →
      (∀ s ∈ path, s ∈ graphStrings e) →
      (∀ r ∈ st, CycleRes e minL maxL r) →
      ∀ r ∈ dfsC e minL maxL start fuel current path st, CycleRes e minL maxL r := by
  intro fuel
  induction fuel with
  | zero => exact fun current path st _ _ _ _ _ _ hst => hst
  | succ fuel ih =>
    intro current path st hne hhead hlast hnd hchain helem hst
    rw [dfsC]
    split
    · exact hst
    rename_i hguard
    cases hadj : lookupA e.adjacency current with
    | none => exact hst
    | some neighbors =>
      have hnb : nbrs e current = neighbors := by rw [nbrs, hadj]; rfl
      refine foldl_pres _ _ neighbors ?_ st hst
      intro st' x hx hst'
      have hedge : edgeOf e current x := by rw [edgeOf, hnb]; exact hx
      have hemit : ∀ r ∈ emitCycle minL start x path st', CycleRes e minL maxL r := by
        unfold emitCycle
        split
        · rename_i hcond
          split
          · exact hst'
          · intro r hr
            rcases List.mem_append.1 hr with hr | hr
            · exact hst' r hr
            · rw [List.mem_singleton] at hr
              subst hr
              refine ⟨⟨hne, hnd, hchain, ?_⟩, hcond.2, Nat.le_of_not_lt hguard, helem⟩
              intro a ha b hb
              rw [hlast, Option.mem_some_iff] at ha
              rw [hhead, Option.mem_some_iff] at hb
              rw [← ha, ← hb]
              exact hcond.1 ▸ hedge
        · exact hst'
      split
      · exact hemit
      · rename_i hxmem
        refine ih x (path ++ [x]) (emitCycle minL start x path st')
          (by simp) ?_ ?_ ?_ ?_ ?_ hemit
        · rw [head?_append_left _ hne]
          exact hhead
        · exact List.getLast?_concat _
        · rw [List.nodup_append]
          refine ⟨hnd, List.nodup_singleton x, ?_⟩
          intro a ha hax
          rw [List.mem_singleton] at hax
          exact hxmem (hax ▸ ha)
        · refine List.Chain'.append hchain (List.chain'_singleton x) ?_
          intro a ha b hb
          rw [hlast, Option.mem_some_iff] at ha
          rw [List.head?_cons, Option.mem_some_iff] at hb
          rw [← ha, ← hb]
          exact hedge
        · intro s hs
          rcases List.mem_append.1 hs with hs | hs
          · exact helem s hs
          · rw [List.mem_singleton] at hs
            subst hs
            rw [graphStrings, List.mem_flatMap]
            exact ⟨(current, neighbors), lookupA_mem hadj,
              List.mem_cons_of_mem _ hx⟩

/-- Everything `detectCycles` emits is a simple cycle within bounds. -/
theorem detectCycles_sound (e : Engine) (minL maxL : Nat) :
    ∀ r ∈ detectCycles e minL maxL, CycleRes e minL maxL r := by
  unfold detectCycles
  refine foldl_pres _ _ e.adjacency ?_ []
    (fun r hr => absurd hr (List.not_mem_nil _)) 
  intro st kv hkv hst
  refine dfsC_sound e minL maxL kv.1 (maxL + 2) kv.1 [kv.1] st (by simp) rfl rfl
    (List.nodup_singleton _) (List.chain'_singleton _) ?_ hst
  intro s hs
  rw [List.mem_singleton] at hs
  subst hs
  rw [graphStrings, List.mem_flatMap]
  exact ⟨kv, hkv, List.mem_cons_self _ _⟩

theorem foldl_state_pres {α β : Type} (g : α → β → α) (Q : α → Prop)
    (l : List β) (hg : ∀ st x, x ∈ l → Q st → Q (g st x)) :
    ∀ st, Q st → Q (l.foldl g st) := by
  induction l with
  | nil => exact fun st h => h
  | cons x xs ih =>
    intro st hst
    rw [List.foldl_cons]
    exact ih (fun st' y hy => hg st' y (List.mem_cons_of_mem _ hy)) (g st x)
      (hg st x (List.mem_cons_self _ _) hst)

theorem emitCycle_keys_nodup {minL : Nat} {start next : String}
    {path : List String} {st : List (List String)}
    (h : (st.map canonicalize).Nodup) :
    ((emitCycle minL start next path st).map canonicalize).Nodup := by
  unfold emitCycle
  split
  · split
    · exact h
    · rename_i hnotin
      rw [List.map_append]
      rw [List.nodup_append]
      refine ⟨h, List.nodup_singleton _, ?_⟩
      intro a ha hax
      rw [List.map_singleton, List.mem_singleton] at hax
      exact hnotin (hax ▸ ha)
  · exact h

theorem dfsC_keys_nodup (e : Engine) (minL maxL : Nat) (start : String) :
    ∀ (fuel : Nat) (current : String) (path : List String)
      (st : List (List String)), (st.map canonicalize).Nodup →
      ((dfsC e minL maxL start fuel current path st).map canonicalize).Nodup := by
  intro fuel
  induction fuel with
  | zero => exact fun _ _ _ h => h
  | succ fuel ih =>
    intro current path st hst
    rw [dfsC]
    split
    · exact hst
    cases lookupA e.adjacency current with
    | none => exact hst
    | some neighbors =>
      refine foldl_state_pres _
        (fun st => (st.map canonicalize).Nodup) neighbors ?_ st hst
      intro st' x _ hst'
      split
      · exact emitCycle_keys_nodup hst'
      · exact ih x (path ++ [x]) _ (emitCycle_keys_nodup hst')

theorem detectCycles_keys_nodup (e : Engine) (minL maxL : Nat) :
    ((detectCycles e minL maxL).map canonicalize).Nodup := by
  unfold detectCycles
  refine foldl_state_pres _
    (fun st => (st.map canonicalize).Nodup) e.adjacency ?_ [] (by simp)
  intro st kv _ hst
  exact dfsC_keys_nodup e minL maxL kv.1 (maxL + 2) kv.1 [kv.1] st hst

theorem CycEquiv_refl (l : List String) : CycEquiv l l :=
  Or.inl (List.IsRotated.refl l)

theorem CycEquiv_symm {l1 l2 : List String} (h : CycEquiv l1 l2) :
    CycEquiv l2 l1 := by
  rcases h with h | h
  · exact Or.inl h.symm
  · refine Or.inr ?_
    have := h.reverse
    rw [List.reverse_reverse] at this
    exact this.symm

theorem CycEquiv_trans {l1 l2 l3 : List String} (h12 : CycEquiv l1 l2)
    (h23 : CycEquiv l2 l3) : CycEquiv l1 l3 := by
  rcases h12 with h12 | h12 <;> rcases h23 with h23 | h23
  · exact Or.inl (h12.trans h23)
  · exact Or.inr (h12.reverse.trans h23)
  · exact Or.inr (h12.trans h23)
  · refine Or.inl ?_
    have := h12.reverse
    rw [List.reverse_reverse] at this
    exact this.trans h23

/-- Equal canonical keys imply rotation-or-reversal equivalence when no id
contains the `"|"` the key is joined with. -/
theorem canonicalize_eq_implies_equiv {l1 l2 : List String} (h1 : l1 ≠ [])
    (h2 : l2 ≠ []) (hp1 : ∀ s ∈ l1, '|' ∉ s.data) (hp2 : ∀ s ∈ l2, '|' ∉ s.data)
    (heq : canonicalize l1 = canonicalize l2) : CycEquiv l1 l2 := by
  obtain ⟨c1, hc1, hj1, _⟩ := canonicalize_spec h1
  obtain ⟨c2, hc2, hj2, _⟩ := canonicalize_spec h2
  have hjoin : joinSep '|' c1 = joinSep '|' c2 := by rw [← hj1, ← hj2, heq]
  have hn1 : c1 ≠ [] := by
    intro hc
    have hl := cycleCandidates_length hc1
    rw [hc] at hl
    exact h1 (List.length_eq_zero.1 hl.symm)
  have hn2 : c2 ≠ [] := by
    intro hc
    have hl := cycleCandidates_length hc2
    rw [hc] at hl
    exact h2 (List.length_eq_zero.1 hl.symm)
  have hceq : c1 = c2 := joinSep_inj hn1 hn2
    (fun s hs => hp1 s (cycleCandidates_elem_subset hc1 s hs))
    (fun s hs => hp2 s (cycleCandidates_elem_subset hc2 s hs)) hjoin
  have he1 : CycEquiv l1 c1 := (mem_cycleCandidates h1).1 hc1
  have he2 : CycEquiv l2 c2 := (mem_cycleCandidates h2).1 hc2
  exact CycEquiv_trans he1 (hceq ▸ CycEquiv_symm he2)

/-- No two distinct emitted cycles are rotation-or-reversal equivalent, when
ids are comma-free. -/
theorem detectCycles_unique_helper (e : Engine) (minL maxL : Nat)
    (hfree : charFreeIds e ',') :
    ∀ r1 ∈ detectCycles e minL maxL, ∀ r2 ∈ detectCycles e minL maxL,
      CycEquiv r1 r2 → r1 = r2 := by
  intro r1 h1 r2 h2 hequiv
  have s1 := detectCycles_sound e minL maxL r1 h1
  have hkey : canonicalize r2 = canonicalize r1 :=
    canonicalize_eq_of_equiv s1.1.1
      (fun s hs => hfree s (s1.2.2.2 s hs)) hequiv
  exact List.inj_on_of_nodup_map (detectCycles_keys_nodup e minL maxL) h1 h2 hkey.symm

/-- C5: for a non-empty node sequence whose ids are comma-free, every
rotation-or-reversal equivalent sequence canonicalizes to the same key, and —
ids of the graph being comma-free — at most one ring is emitted per
equivalence class of cycles under rotation and reversal. (The comma-free
hypothesis is needed: an id containing `","` can make the candidate minimum
ambiguous, see the counterexample.) -/
theorem C5_canonical_key_invariance
    (l1 l2 : List String) (e : Engine) (minL maxL : Nat)
    (h1 : l1 ≠ []) (hfree : ∀ s ∈ l1, ',' ∉ s.data)
    (hequiv : CycEquiv l1 l2) (hef : charFreeIds e ',') :
    canonicalize l2 = canonicalize l1 ∧
      (∀ r1 ∈ detectCycles e minL maxL, ∀ r2 ∈ detectCycles e minL maxL,
        CycEquiv r1 r2 → r1 = r2) :=
  ⟨canonicalize_eq_of_equiv h1 hfree hequiv,
   detectCycles_unique_helper e minL maxL hef⟩

/-- The sequence `["a", "a,a", "x"]` and its reversal are equivalent as
cycles, yet canonicalize to different keys: the embedded comma makes two
distinct candidates share the comma-joined comparison key, and the picked
minimum depends on candidate order. -/
theorem C5_counterexample :
    CycEquiv ["a", "a,a", "x"] (["a", "a,a", "x"].reverse) ∧
    canonicalize ((["a", "a,a", "x"] : List String).reverse) ≠
      canonicalize ["a", "a,a", "x"] := by
  constructor
  · exact Or.inr (List.IsRotated.refl _)
  · decide

theorem C5_witness :
    ((["a", "b", "c"] : List String) ≠ [] ∧
      (∀ s ∈ (["a", "b", "c"] : List String), ',' ∉ s.data) ∧
      CycEquiv ["a", "b", "c"] ["b", "c", "a"] ∧
      charFreeIds emptyEngine ',') ∧
    (canonicalize ["b", "c", "a"] = canonicalize ["a", "b", "c"] ∧
      (∀ r1 ∈ detectCycles emptyEngine 3 5, ∀ r2 ∈ detectCycles emptyEngine 3 5,
        CycEquiv r1 r2 → r1 = r2)) := by
  have hef : charFreeIds emptyEngine ',' := by unfold charFreeIds; decide
  refine ⟨⟨by decide, by decide, Or.inl ⟨1, by decide⟩, hef⟩, ?_⟩
  exact C5_canonical_key_invariance ["a", "b", "c"] ["b", "c", "a"]
    emptyEngine 3 5 (by decide) (by decide) (Or.inl ⟨1, by decide⟩) hef

theorem emitCycle_key_mem (minL : Nat) (start : String) (path : List String)
    (st : List (List String)) (hlen : minL ≤ path.length) :
    canonicalize path ∈ ((emitCycle minL start start path st).map canonicalize) := by
  unfold emitCycle
  rw [if_pos (⟨rfl, hlen⟩ : start = start ∧ minL ≤ path.length)]
  split
  · assumption
  · rw [List.map_append]
    exact List.mem_append_right _ (by simp)

theorem out_edge_mem_graphStrings {e : Engine} {x y : String}
    (h : edgeOf e x y) : x ∈ graphStrings e := by
  rw [edgeOf] at h
  cases hlk : lookupA e.adjacency x with
  | none =>
    rw [nbrs, hlk] at h
    exact absurd h (List.not_mem_nil _)
  | some row =>
    rw [graphStrings, List.mem_flatMap]
    exact ⟨(x, row), lookupA_mem hlk, List.mem_cons_self _ _⟩

theorem IsCycleOf_mem_graphStrings (e : Engine) (cyc : List String)
    (hcyc : IsCycleOf e cyc) : ∀ x ∈ cyc, x ∈ graphStrings e := by
  obtain ⟨hne, _, hch, hcl⟩ := hcyc
  intro x hx
  obtain ⟨⟨i, hi⟩, rfl⟩ := List.mem_iff_get.1 hx
  by_cases hsucc : i + 1 < cyc.length
  · exact out_edge_mem_graphStrings (List.chain'_iff_get.1 hch i (by omega))
  · have hieq : i = cyc.length - 1 := by omega
    have hlast : cyc.getLast? = some (cyc.get ⟨i, hi⟩) := by
      rw [List.getLast?_eq_getElem?, List.getElem?_eq_getElem (by omega)]
      simp only [List.get_eq_getElem, Option.some.injEq]
      congr 1
      omega
    obtain ⟨c0, t⟩ : ∃ c0 t, cyc = c0 :: t := by
      cases cyc with
      | nil => exact absurd rfl hne
      | cons c0 t => exact ⟨c0, t, rfl⟩
    obtain ⟨t, rfl⟩ := t
    exact out_edge_mem_graphStrings
      (hcl _ hlast c0 (by rw [List.head?_cons, Option.mem_some_iff]))

/-- Completeness of the DFS: if the partial path is the `k`-prefix of a valid
cycle `rot` within bounds that starts at `start`, the canonical key of `rot`
appears among the keys of the result. -/
theorem dfsC_complete (e : Engine) (minL maxL : Nat) (start : String)
    (rot : List String) (hnd : rot.Nodup)
    (hch : List.Chain' (edgeOf e) rot)
    (hcl : ∀ x ∈ rot.getLast?, ∀ y ∈ rot.head?, edgeOf e x y)
    (hhead : rot.head? = some start)
    (hmin : minL ≤ rot.length) (hmax : rot.length ≤ maxL) :
    ∀ (fuel k : Nat) (current : String) (st : List (List String)),
      1 ≤ k → k ≤ rot.length → rot.length - k + 1 ≤ fuel →
      rot[k - 1]? = some current →
      canonicalize rot ∈
        ((dfsC e minL maxL start fuel current (rot.take k) st).map canonicalize) := by
  intro fuel
  induction fuel with
  | zero =>
    intro k current st hk1 hk2 hfuel hcur
    omega
  | succ f ih =>
    intro k current st hk1 hk2 hfuel hcur
    have htklen : (rot.take k).length = k := by
      rw [List.length_take]
      omega
    rw [dfsC]
    rw [if_neg (show ¬ maxL < (rot.take k).length by rw [htklen]; omega)]
    obtain ⟨nx, hedge, htgt⟩ :
        ∃ nx, edgeOf e current nx ∧
          ∀ st' : List (List String), canonicalize rot ∈
            ((if nx ∈ rot.take k then emitCycle minL start nx (rot.take k) st'
              else dfsC e minL maxL start f nx (rot.take k ++ [nx])
                (emitCycle minL start nx (rot.take k) st')).map canonicalize) := by
      by_cases hkL : k = rot.length
      · have htake : rot.take k = rot := by rw [hkL, List.take_length]
        have hlast : rot.getLast? = some current := by
          rw [List.getLast?_eq_getElem?, ← hkL]
          exact hcur
        refine ⟨start, hcl current hlast start hhead, ?_⟩
        intro st'
        have hmem : start ∈ rot.take k := by
          rw [htake]
          exact List.mem_of_mem_head? (by rw [hhead, Option.mem_some_iff])
        rw [if_pos hmem, htake]
        exact emitCycle_key_mem minL start rot st' hmin
      · have hklt : k < rot.length := lt_of_le_of_ne hk2 hkL
        have hklt2 : k - 1 < rot.length := by omega
        have hc1 : current = rot[k - 1] := by
          have h3 : rot[k - 1]? = some (rot[k - 1]) :=
            List.getElem?_eq_getElem hklt2
          rw [hcur, Option.some.injEq] at h3
          exact h3
        have hedge : edgeOf e current (rot[k]) := by
          have h2 := List.chain'_iff_get.1 hch (k - 1) (by omega)
          have hkm : k - 1 + 1 = k := by omega
          simp only [List.get_eq_getElem, hkm] at h2
          rw [hc1]
          exact h2
        have hnotmem : rot[k] ∉ rot.take k := by
          intro hmem
          have hmemdrop : rot[k] ∈ rot.drop k := by
            rw [List.drop_eq_getElem_cons hklt]
            exact List.mem_cons_self _ _
          exact List.disjoint_take_drop hnd (le_refl k) hmem hmemdrop
        have htc : rot.take k ++ [rot[k]] = rot.take (k + 1) := by
          have h4 := List.take_concat_get rot k hklt
          rw [List.concat_eq_append] at h4
          exact h4
        refine ⟨rot[k], hedge, ?_⟩
        intro st'
        rw [if_neg hnotmem, htc]
        refine ih (k + 1) (rot[k]) _ (by omega) (by omega) (by omega) ?_
        show rot[k]? = some (rot[k])
        exact List.getElem?_eq_getElem hklt
    have hnbr : nx ∈ nbrs e current := hedge
    cases hlk : lookupA e.adjacency current with
    | none =>
      rw [nbrs, hlk] at hnbr
      exact absurd hnbr (List.not_mem_nil _)
    | some nb =>
      have hnb : nx ∈ nb := by
        rw [nbrs, hlk] at hnbr
        exact hnbr
      refine foldl_mem_target _ canonicalize (canonicalize rot) ?_ nb nx hnb htgt st
      intro st2 x
      dsimp only
      split
      · exact emitCycle_mono _ _ _ _ _
      · obtain ⟨t1, h1⟩ := emitCycle_mono minL start x (rot.take k) st2
        obtain ⟨t2, h2⟩ := dfsC_mono e minL maxL start f x (rot.take k ++ [x]) _
        exact ⟨t1 ++ t2, by rw [h2, h1, List.append_assoc]⟩

/-- Completeness of `detectCycles`: every simple cycle within the length
bounds has an emitted ring with the same canonical key. -/
theorem detectCycles_complete (e : Engine) (minL maxL : Nat)
    (cyc : List String) (hcyc : IsCycleOf e cyc)
    (hmin : minL ≤ cyc.length) (hmax : cyc.length ≤ maxL) :
    ∃ r ∈ detectCycles e minL maxL, canonicalize r = canonicalize cyc := by
  obtain ⟨hne, hnd, hch, hcl⟩ := hcyc
  obtain ⟨c0, t, rfl⟩ : ∃ c0 t, cyc = c0 :: t := by
    cases cyc with
    | nil => exact absurd rfl hne
    | cons c0 t => exact ⟨c0, t, rfl⟩
  have hout : ∃ y, edgeOf e c0 y := by
    cases t with
    | nil => exact ⟨c0, hcl c0 (by simp) c0 (by simp)⟩
    | cons b t2 => exact ⟨b, (List.chain'_cons.1 hch).1⟩
  obtain ⟨y, hy⟩ := hout
  rw [edgeOf] at hy
  obtain ⟨row, hrow⟩ : ∃ row, lookupA e.adjacency c0 = some row := by
    cases hlk : lookupA e.adjacency c0 with
    | none =>
      rw [nbrs, hlk] at hy
      exact absurd hy (List.not_mem_nil _)
    | some row => exact ⟨row, rfl⟩
  have hkv : (c0, row) ∈ e.adjacency := lookupA_mem hrow
  have hmem : canonicalize (c0 :: t) ∈
      ((detectCycles e minL maxL).map canonicalize) := by
    unfold detectCycles
    refine foldl_mem_target _ canonicalize _ ?_ e.adjacency (c0, row) hkv ?_ []
    · intro st kv
      exact dfsC_mono e minL maxL kv.1 (maxL + 2) kv.1 [kv.1] st
    · intro st
      have hl := hmax
      exact dfsC_complete e minL maxL c0 (c0 :: t) hnd hch hcl rfl hmin hmax
        (maxL + 2) 1 c0 st (le_refl 1) (by simp) (by omega) (by simp)
  obtain ⟨r, hr1, hr2⟩ := List.mem_map.1 hmem
  exact ⟨r, hr1, hr2⟩

/-- C4: when no account id contains `","` or `"|"`, the cycle detector is
exact: everything emitted is a simple directed cycle with node count in
[3,5] (so nothing shorter than 3 — in particular no 2-node loop — and
nothing longer than 5 is ever emitted), every simple cycle with node count
in [3,5] is represented by an emitted ring equivalent to it under rotation
or reversal, and no two distinct emitted rings are equivalent.  The
separator-free hypotheses are needed: an id containing `"|"` can collide
two inequivalent cycles onto one canonical key, see the counterexample. -/
theorem C4_cycle_enumeration_exact (e : Engine)
    (hcomma : charFreeIds e ',') (hpipe : charFreeIds e '|') :
    (∀ r ∈ detectCycles e 3 5,
      IsCycleOf e r ∧ 3 ≤ r.length ∧ r.length ≤ 5) ∧
    (∀ cyc, IsCycleOf e cyc → 3 ≤ cyc.length → cyc.length ≤ 5 →
      ∃ r ∈ detectCycles e 3 5, CycEquiv cyc r) ∧
    (∀ r1 ∈ detectCycles e 3 5, ∀ r2 ∈ detectCycles e 3 5,
      CycEquiv r1 r2 → r1 = r2) := by
  refine ⟨?_, ?_, detectCycles_unique_helper e 3 5 hcomma⟩
  · intro r hr
    have h := detectCycles_sound e 3 5 r hr
    exact ⟨h.1, h.2.1, h.2.2.1⟩
  · intro cyc hcyc h3 h5
    obtain ⟨r, hrmem, hrkey⟩ := detectCycles_complete e 3 5 cyc hcyc h3 h5
    refine ⟨r, hrmem, ?_⟩
    have hs := detectCycles_sound e 3 5 r hrmem
    have hpc : ∀ s ∈ cyc, '|' ∉ s.data :=
      fun s hsm => hpipe s (IsCycleOf_mem_graphStrings e cyc hcyc s hsm)
    have hpr : ∀ s ∈ r, '|' ∉ s.data := fun s hsm => hpipe s (hs.2.2.2 s hsm)
    exact canonicalize_eq_implies_equiv hcyc.1 hs.1.1 hpc hpr hrkey.symm

/-- In `cycleKeyCollisionBatch` the sequence `["a|b", "c", "d"]` is a genuine
simple cycle with node count in [3,5], yet the detector emits only
`[["a", "b", "c", "d"]]` and no ring equivalent to it: the id `"a|b"`
collides the two canonical keys. -/
theorem C4_counterexample :
    detectCycles cycleKeyCollisionEngine 3 5 = [["a", "b", "c", "d"]] ∧
    IsCycleOf cycleKeyCollisionEngine ["a|b", "c", "d"] ∧
    (3 ≤ (["a|b", "c", "d"] : List String).length ∧
      (["a|b", "c", "d"] : List String).length ≤ 5) ∧
    ∀ r ∈ detectCycles cycleKeyCollisionEngine 3 5,
      ¬ CycEquiv ["a|b", "c", "d"] r := by
  have hdet : detectCycles cycleKeyCollisionEngine 3 5 = [["a", "b", "c", "d"]] := by
    decide
  refine ⟨hdet, ⟨by decide, by decide, ?_, ?_⟩, by decide, ?_⟩
  · rw [List.chain'_cons, List.chain'_cons]
    refine ⟨?_, ?_, List.chain'_singleton _⟩
    · show ("c" : String) ∈ nbrs cycleKeyCollisionEngine "a|b"
      decide
    · show ("d" : String) ∈ nbrs cycleKeyCollisionEngine "c"
      decide
  · intro x hx y hy
    rw [show (["a|b", "c", "d"] : List String).getLast? = some "d" from rfl,
      Option.mem_some_iff] at hx
    rw [show (["a|b", "c", "d"] : List String).head? = some "a|b" from rfl,
      Option.mem_some_iff] at hy
    subst hx
    subst hy
    show ("a|b" : String) ∈ nbrs cycleKeyCollisionEngine "d"
    decide
  · intro r hr h
    rw [hdet, List.mem_singleton] at hr
    subst hr
    have hlen : (3 : Nat) = 4 := by
      rcases h with h | h
      · simpa using h.perm.length_eq
      · simpa using h.perm.length_eq
    exact absurd hlen (by decide)

theorem C4_witness :
    (charFreeIds shellCycleOverlapEngine ',' ∧
      charFreeIds shellCycleOverlapEngine '|') ∧
    ((∀ r ∈ detectCycles shellCycleOverlapEngine 3 5,
        IsCycleOf shellCycleOverlapEngine r ∧ 3 ≤ r.length ∧ r.length ≤ 5) ∧
      (∀ cyc, IsCycleOf shellCycleOverlapEngine cyc →
        3 ≤ cyc.length → cyc.length ≤ 5 →
        ∃ r ∈ detectCycles shellCycleOverlapEngine 3 5, CycEquiv cyc r) ∧
      (∀ r1 ∈ detectCycles shellCycleOverlapEngine 3 5,
        ∀ r2 ∈ detectCycles shellCycleOverlapEngine 3 5,
        CycEquiv r1 r2 → r1 = r2)) := by
  have hcomma : charFreeIds shellCycleOverlapEngine ',' := by
    unfold charFreeIds
    decide
  have hpipe : charFreeIds shellCycleOverlapEngine '|' := by
    unfold charFreeIds
    decide
  exact ⟨⟨hcomma, hpipe⟩, C4_cycle_enumeration_exact shellCycleOverlapEngine hcomma hpipe⟩

theorem nbr_mem_graphStrings {e : Engine} {x y : String} (h : y ∈ nbrs e x) :
    y ∈ graphStrings e := by
  cases hlk : lookupA e.adjacency x with
  | none =>
    rw [nbrs, hlk] at h
    exact absurd h (List.not_mem_nil _)
  | some row =>
    rw [nbrs, hlk] at h
    rw [graphStrings, List.mem_flatMap]
    exact ⟨(x, row), lookupA_mem hlk, List.mem_cons_of_mem _ h⟩

/-- Every component of a shell candidate tuple is an id the adjacency
mentions. -/
theorem shellTuples_mem_graphStrings (e : Engine) (cyc : List String)
    (a b c d : String) (h : (a, b, c, d) ∈ shellTuples e cyc) :
    a ∈ graphStrings e ∧ b ∈ graphStrings e ∧
      c ∈ graphStrings e ∧ d ∈ graphStrings e := by
  rw [shellTuples, List.mem_flatMap] at h
  obtain ⟨kv, hkv, h⟩ := h
  obtain ⟨_, _, b2, hb2, h⟩ := mem_shellLoopA h
  obtain ⟨_, _, c2, hc2, h⟩ := mem_shellLoopB h
  obtain ⟨_, _, _, d2, hd2, h⟩ := mem_shellLoopC h
  obtain ⟨hx, _⟩ := mem_shellLoopD h
  rw [Prod.mk.injEq, Prod.mk.injEq, Prod.mk.injEq] at hx
  obtain ⟨ha, hb, hc, hd⟩ := hx
  refine ⟨?_, ?_, ?_, ?_⟩
  · rw [graphStrings, List.mem_flatMap]
    exact ⟨kv, hkv, by rw [ha]; exact List.mem_cons_self _ _⟩
  · rw [graphStrings, List.mem_flatMap]
    exact ⟨kv, hkv, by rw [hb]; exact List.mem_cons_of_mem _ hb2⟩
  · rw [hc]
    exact nbr_mem_graphStrings hc2
  · rw [hd]
    exact nbr_mem_graphStrings hd2

/-- The shell risk takes exactly two values, split by the 24-hour spread
test. -/
theorem shellRisk_dichotomy (e : Engine) (a b c d : String) :
    (jsLt (jsSub (jsNumOfLookup (getTxTime e c d)) (jsNumOfLookup (getTxTime e a b)))
        (some (24 * 60 * 60 * 1000)) = true ∧ shellRisk e a b c d = 4 / 5) ∨
    (jsLt (jsSub (jsNumOfLookup (getTxTime e c d)) (jsNumOfLookup (getTxTime e a b)))
        (some (24 * 60 * 60 * 1000)) = false ∧ shellRisk e a b c d = 5 / 8) := by
  by_cases h : jsLt (jsSub (jsNumOfLookup (getTxTime e c d))
      (jsNumOfLookup (getTxTime e a b))) (some (24 * 60 * 60 * 1000)) = true
  · refine Or.inl ⟨h, ?_⟩
    simp only [shellRisk]
    rw [if_pos h]
    norm_num
  · refine Or.inr ⟨by rwa [Bool.not_eq_true] at h, ?_⟩
    simp only [shellRisk]
    rw [if_neg h]
    norm_num

/-- Both possible shell risks sit above the rejection floor `0.6`. -/
theorem shellRisk_ge_floor (e : Engine) (a b c d : String) :
    3 / 5 ≤ shellRisk e a b c d := by
  rcases shellRisk_dichotomy e a b c d with ⟨_, h⟩ | ⟨_, h⟩ <;> rw [h] <;> norm_num

/-- The risk-floor branch of the innermost `detectShell` loop never fires. -/
theorem shellLoopD_no_floor (e : Engine) (a b c d : String) :
    shellLoopD e a b c d =
      if d = a ∨ d = b ∨ d = c then []
      else if a ∈ nbrs e d then []
      else if !isTemporalChainB e a b c d then []
      else [(a, b, c, d)] := by
  unfold shellLoopD
  split_ifs with h1 h2 h3 h4
  · rfl
  · rfl
  · rfl
  · exact absurd h4 (not_lt.2 (shellRisk_ge_floor e a b c d))
  · rfl

/-- Completeness of `detectShell` for pipe-free ids: every candidate that
passed all guards is represented by an emitted ring with exactly its
accounts and risk. -/
theorem detectShell_complete (e : Engine) (cyc : List String)
    (hpipe : charFreeIds e '|') (a b c d : String)
    (ht : (a, b, c, d) ∈ shellTuples e cyc) :
    ∃ r ∈ detectShell e cyc, r.accounts = [a, b, c, d] ∧
      r.risk = shellRisk e a b c d := by
  have hkeymem : joinSep '|' [a, b, c, d] ∈
      ((detectShell e cyc).map (fun r => joinSep '|' r.accounts)) := by
    unfold detectShell
    refine foldl_mem_target (shellFoldStep e) (fun r => joinSep '|' r.accounts)
      _ ?_ (shellTuples e cyc) (a, b, c, d) ht ?_ []
    · intro rings t
      unfold shellFoldStep
      split
      · exact ⟨[], (List.append_nil rings).symm⟩
      · exact ⟨[shellRingOf e t], rfl⟩
    · intro rings
      unfold shellFoldStep
      split
      · rename_i hin
        exact hin
      · rw [List.map_append]
        refine List.mem_append_right _ ?_
        simp [shellRingOf]
  obtain ⟨r, hrmem, hrkey⟩ := List.mem_map.1 hkeymem
  refine ⟨r, hrmem, ?_⟩
  obtain ⟨a2, b2, c2, d2, ht2, hr2⟩ := detectShell_sound e cyc r hrmem
  have hacc : r.accounts = [a2, b2, c2, d2] := by rw [hr2]; rfl
  have hg1 := shellTuples_mem_graphStrings e cyc a2 b2 c2 d2 ht2
  have hg2 := shellTuples_mem_graphStrings e cyc a b c d ht
  have hfree1 : ∀ s ∈ [a2, b2, c2, d2], '|' ∉ s.data := by
    intro s hs
    simp only [List.mem_cons, List.not_mem_nil, or_false] at hs
    rcases hs with rfl | rfl | rfl | rfl
    · exact hpipe s hg1.1
    · exact hpipe s hg1.2.1
    · exact hpipe s hg1.2.2.1
    · exact hpipe s hg1.2.2.2
  have hfree2 : ∀ s ∈ [a, b, c, d], '|' ∉ s.data := by
    intro s hs
    simp only [List.mem_cons, List.not_mem_nil, or_false] at hs
    rcases hs with rfl | rfl | rfl | rfl
    · exact hpipe s hg2.1
    · exact hpipe s hg2.2.1
    · exact hpipe s hg2.2.2.1
    · exact hpipe s hg2.2.2.2
  have hlst : [a2, b2, c2, d2] = [a, b, c, d] :=
    joinSep_inj (by simp) (by simp) hfree1 hfree2 (by rw [← hacc]; exact hrkey)
  have hcomp : a2 = a ∧ b2 = b ∧ c2 = c ∧ d2 = d := by simpa using hlst
  obtain ⟨rfl, rfl, rfl, rfl⟩ := hcomp
  exact ⟨hacc, by rw [hr2]; rfl⟩

/-- C8: the risk of every emitted shell ring is exactly `4/5` (score 80.0)
when the spread `time(C→D) − time(A→B)` passes the 24-hour test and exactly
`5/8` (score 62.5) otherwise; the `0.6` rejection floor is unreachable (both
outcomes sit above it, so the floor branch of the innermost loop never
fires); and — ids being pipe-free — every chain that passed the structural
and temporal checks is represented by an emitted ring with its accounts and
risk.  The pipe-free hypothesis is needed for the last part: an id
containing `"|"` can collide two distinct passing chains onto one dedup key,
see the counterexample. -/
theorem C8_shell_risk_dichotomy_and_floor (e : Engine) (cyc : List String)
    (hpipe : charFreeIds e '|') :
    (∀ r ∈ detectShell e cyc, ∃ a b c d,
      (a, b, c, d) ∈ shellTuples e cyc ∧ r = shellRingOf e (a, b, c, d) ∧
      ((jsLt (jsSub (jsNumOfLookup (getTxTime e c d)) (jsNumOfLookup (getTxTime e a b)))
          (some (24 * 60 * 60 * 1000)) = true ∧ r.risk = 4 / 5) ∨
        (jsLt (jsSub (jsNumOfLookup (getTxTime e c d)) (jsNumOfLookup (getTxTime e a b)))
          (some (24 * 60 * 60 * 1000)) = false ∧ r.risk = 5 / 8))) ∧
    (∀ a b c d : String, 3 / 5 ≤ shellRisk e a b c d ∧
      shellLoopD e a b c d =
        if d = a ∨ d = b ∨ d = c then []
        else if a ∈ nbrs e d then []
        else if !isTemporalChainB e a b c d then []
        else [(a, b, c, d)]) ∧
    (∀ a b c d, (a, b, c, d) ∈ shellTuples e cyc →
      ∃ r ∈ detectShell e cyc, r.accounts = [a, b, c, d] ∧
        r.risk = shellRisk e a b c d) := by
  refine ⟨?_,
    fun a b c d => ⟨shellRisk_ge_floor e a b c d, shellLoopD_no_floor e a b c d⟩,
    fun a b c d ht => detectShell_complete e cyc hpipe a b c d ht⟩
  intro r hr
  obtain ⟨a, b, c, d, ht, hr2⟩ := detectShell_sound e cyc r hr
  refine ⟨a, b, c, d, ht, hr2, ?_⟩
  have hrisk : r.risk = shellRisk e a b c d := by rw [hr2]; rfl
  rcases shellRisk_dichotomy e a b c d with ⟨h1, h2⟩ | ⟨h1, h2⟩
  · exact Or.inl ⟨h1, by rw [hrisk, h2]⟩
  · exact Or.inr ⟨h1, by rw [hrisk, h2]⟩

/-- In `shellKeyCollisionBatch` the chain `p → q|r → s → t` passes every
`detectShell` guard, yet the only emitted ring is the earlier chain
`p|q → r → s → t`: the two distinct chains share the dedup key
`"p|q|r|s|t"`, so the second is silently dropped. -/
theorem C8_counterexample :
    ("p", "q|r", "s", "t") ∈ shellTuples shellKeyCollisionEngine [] ∧
    detectShell shellKeyCollisionEngine [] =
      [{ accounts := ["p|q", "r", "s", "t"], risk := 4 / 5 }] ∧
    ∀ r ∈ detectShell shellKeyCollisionEngine [],
      r.accounts ≠ ["p", "q|r", "s", "t"] := by
  have hdet : detectShell shellKeyCollisionEngine [] =
      [{ accounts := ["p|q", "r", "s", "t"], risk := 4 / 5 }] := by decide
  refine ⟨by decide, hdet, ?_⟩
  intro r hr
  rw [hdet, List.mem_singleton] at hr
  subst hr
  decide

theorem C8_witness :
    charFreeIds shellCycleOverlapEngine '|' ∧
    (∀ a b c d : String, 3 / 5 ≤ shellRisk shellCycleOverlapEngine a b c d) ∧
    (∀ a b c d, (a, b, c, d) ∈ shellTuples shellCycleOverlapEngine ["X", "Y", "D"] →
      ∃ r ∈ detectShell shellCycleOverlapEngine ["X", "Y", "D"],
        r.accounts = [a, b, c, d] ∧
          r.risk = shellRisk shellCycleOverlapEngine a b c d) := by
  have hpipe : charFreeIds shellCycleOverlapEngine '|' := by
    unfold charFreeIds
    decide
  have h := C8_shell_risk_dichotomy_and_floor shellCycleOverlapEngine
    ["X", "Y", "D"] hpipe
  exact ⟨hpipe, fun a b c d => (h.2.1 a b c d).1, h.2.2⟩
